import Mathlib

/-!
Verification of the md2html build-graph engine.

This file shallowly embeds the core of the md2html repository — the Python
string and `pathlib` operations the tool relies on, the directive-option
parser of `markdown_preprocessing.py`, the output-path computation of
`config.py`, the target discovery of `buildgraph.py` and the dependency
planner with its Kahn topological sort from the planner module — and proves
the specification's claims about them.

Modelling conventions: Python strings are ASCII-modelled Lean strings,
`pathlib.Path` is a pair of an absoluteness flag and a component list,
Python `int` degrees are `Int`, Python dictionaries are insertion-ordered
association lists, `sys.exit(1)` and uncaught exceptions are `Except.error`,
and the filesystem seen by discovery is a static tree (planning performs no
writes).  External collaborators (the directive scanner, file metadata
parser) are parameters, as the specification treats them.
-/

namespace Md2Html

/-! ### Python string primitives (ASCII model) -/

def pyLowerChar (c : Char) : Char :=
  if 65 ≤ c.toNat ∧ c.toNat ≤ 90 then Char.ofNat (c.toNat + 32) else c

/-- ASCII digit test. -/
def pyDigitChar (c : Char) : Bool := decide (48 ≤ c.toNat) && decide (c.toNat ≤ 57)

def pyLower (s : String) : String := ⟨s.data.map pyLowerChar⟩

def pySpaceChar (c : Char) : Bool :=
  c == ' ' || c == '\t' || c == '\n' || c == '\r' || c == Char.ofNat 11 || c == Char.ofNat 12

def pyQuoteChar (c : Char) : Bool := c == '"' || c == '\''

/-- Python `str.strip(...)`: drop the matching characters from both ends. -/
def stripWhile (p : Char → Bool) (l : List Char) : List Char :=
  ((l.dropWhile p).reverse.dropWhile p).reverse

def pyStripWs (s : String) : String := ⟨stripWhile pySpaceChar s.data⟩

def pyStripQuotes (s : String) : String := ⟨stripWhile pyQuoteChar s.data⟩

/-- Python `str.isdigit()` (ASCII digits). -/
def pyIsDigits (s : String) : Bool := !s.data.isEmpty && s.data.all pyDigitChar

/-- Python `int(...)` on a digit string. -/
def natOfDigits (s : String) : Nat := s.data.foldl (fun n c => 10 * n + (c.toNat - 48)) 0

/-- Python `str.split(sep)`: all fields, empty fields kept. -/
def splitChar (sep : Char) : List Char → List (List Char)
  | [] => [[]]
  | c :: rest =>
      let r := splitChar sep rest
      if c == sep then [] :: r
      else
        match r with
        | [] => [[c]]
        | h :: t => (c :: h) :: t

/-- Character-level leading-match test: does the second list begin with the
first? -/
def charsLead : List Char → List Char → Bool
  | [], _ => true
  | _ :: _, [] => false
  | a :: s, b :: t => a == b && charsLead s t

/-- Python `str.startswith` over the character model. -/
def pyStartsWith (s pre : String) : Bool := charsLead pre.data s.data

/-- Python `str.split(sep, 1)` when `sep` occurs: the two surrounding parts. -/
def splitFirst (sep : Char) : List Char → Option (List Char × List Char)
  | [] => none
  | c :: rest =>
      if c == sep then some ([], rest)
      else
        match splitFirst sep rest with
        | none => none
        | some (a, b) => some (c :: a, b)

/-! ### Directive option values (`markdown_preprocessing.parse_directive_line`) -/

/-- A Python scalar stored in a directive's options dictionary. -/
inductive PyVal where
  | s : String → PyVal
  | b : Bool → PyVal
  | i : Nat → PyVal
deriving DecidableEq, Repr

/-- Python `str(...)` of an option value, as used by the f-string serializer. -/
def pyStr : PyVal → String
  | .s v => v
  | .b true => "True"
  | .b false => "False"
  | .i n => toString n

/-- Type coercion applied to a directive option value after stripping
(`markdown_preprocessing.py` lines 86-92). -/
def coerceValue (value : String) : PyVal :=
  if pyLower value = "true" then .b true
  else if pyLower value = "false" then .b false
  else if pyIsDigits value then .i (natOfDigits value)
  else .s value

/-- Python dict assignment `d[k] = v`: overwrite in place or append. -/
def assocUpdate {β : Type} (l : List (String × β)) (k : String) (v : β) :
    List (String × β) :=
  match l with
  | [] => [(k, v)]
  | (k0, v0) :: rest => if k0 = k then (k, v) :: rest else (k0, v0) :: assocUpdate rest k v

/-- One iteration of the option loop in `parse_directive_line`. -/
def parseOptionItem (opts : List (String × PyVal)) (item : List Char) :
    List (String × PyVal) :=
  let option := stripWhile pySpaceChar item
  match splitFirst '=' option with
  | none => opts
  | some (k, v) =>
      let key := String.mk (stripWhile pySpaceChar k)
      let value := String.mk (stripWhile pyQuoteChar (stripWhile pySpaceChar v))
      assocUpdate opts key (coerceValue value)

/-- The option dictionary built from a directive's option string
(`markdown_preprocessing.py` lines 76-93). -/
def parseOptions (optionsStr : String) : List (String × PyVal) :=
  (splitChar ',' optionsStr.data).foldl parseOptionItem []

/-- One parsed `@include`/`@src` directive. -/
structure MarkdownDirective where
  directive_type : String
  file_path : String
  options : List (String × PyVal)
deriving DecidableEq, Repr

/-- A dependency record of the build-plan artifact. -/
structure DepRecord where
  name : String
  options : List String
deriving DecidableEq, Repr

/-- Option serialization of `extract_dependencies_from_directives`
(`markdown_preprocessing.py` lines 141-144): each entry rendered `key=value`
with Python's `str` of the coerced value. -/
def serializeOptions (options : List (String × PyVal)) : List String :=
  options.map (fun kv => kv.1 ++ "=" ++ pyStr kv.2)

/-- Models `extract_dependencies_from_directives` for one directive: the declared
path is kept verbatim as the record's name. -/
def extractDependency (d : MarkdownDirective) : DepRecord :=
  ⟨d.file_path, serializeOptions d.options⟩

def extractDependencies (ds : List MarkdownDirective) : List DepRecord :=
  ds.map extractDependency

/-! ### `pathlib.Path` model

A path is an absoluteness flag plus a component list; `pathlib` drops `"."`
and empty components at construction and keeps `".."`. -/

structure PyPath where
  absolute : Bool
  comps : List String
deriving DecidableEq, Repr

/-- Models `pathlib.Path(s)` from a string. -/
def pyPathOfString (s : String) : PyPath :=
  ⟨pyStartsWith s "/",
    ((splitChar '/' s.data).map String.mk).filter (fun c => c != "" && c != ".")⟩

/-- Models `Path.name`: the final component, `""` for `.` and `/`. -/
def pyName (p : PyPath) : String := (p.comps.getLast?).getD ""

/-- Models `Path.parent`. -/
def pyParent (p : PyPath) : PyPath := ⟨p.absolute, p.comps.dropLast⟩

/-- Models `Path.__truediv__` (the `/` operator). -/
def pyJoin (p q : PyPath) : PyPath :=
  if q.absolute then q else ⟨p.absolute, p.comps ++ q.comps⟩

/-- Joining a single name onto a directory path (`dir / item.name`). -/
def pyJoinName (p : PyPath) (name : String) : PyPath := ⟨p.absolute, p.comps ++ [name]⟩

/-- Models `Path.parents`: every strict ancestor of the path. -/
def pyParents (p : PyPath) : List PyPath :=
  (List.range p.comps.length).map (fun i => ⟨p.absolute, p.comps.take i⟩)

/-- POSIX normalization used by `Path.resolve`: `.` dropped, `..` pops. -/
def normComps (l : List String) : List String :=
  l.foldl
    (fun acc c => if c = ".." then acc.dropLast else if c = "." then acc else acc ++ [c]) []

/-- Models `Path.resolve()` against the process working directory (symlink-free
filesystem model). -/
def pyResolve (cwd : List String) (p : PyPath) : PyPath :=
  ⟨true, normComps (if p.absolute then p.comps else cwd ++ p.comps)⟩

/-- Splits the reversed characters of a name at the first `'.'` seen from
the end: trailing extension characters (reversed) and the rest. -/
def revExtSplit : List Char → (List Char × List Char)
  | [] => ([], [])
  | c :: rest =>
      if c == '.' then ([], c :: rest)
      else
        let r := revExtSplit rest
        (c :: r.1, r.2)

/-- Models `Path.suffix`: the extension of the final component; empty when the only
dot is the name's first or last character. -/
def pySuffix (p : PyPath) : String :=
  let r := revExtSplit (pyName p).data.reverse
  match r.2 with
  | [] => ""
  | _ :: stemRev => if stemRev.isEmpty || r.1.isEmpty then "" else String.mk ('.' :: r.1.reverse)

/-- Models `Path.with_suffix(newSuffix)`. -/
def pyWithSuffix (p : PyPath) (newSuffix : String) : PyPath :=
  let name := pyName p
  if name = "" then p
  else
    let old := pySuffix p
    let name2 :=
      if old = "" then name ++ newSuffix
      else String.mk (name.data.take (name.data.length - old.data.length)) ++ newSuffix
    ⟨p.absolute, p.comps.dropLast ++ [name2]⟩

/-- Models `Path.relative_to(base)`: defined when `base`'s components lead `p`'s. -/
def pyRelativeTo (p base : PyPath) : Option PyPath :=
  if p.absolute = base.absolute ∧ base.comps = p.comps.take base.comps.length then
    some ⟨false, p.comps.drop base.comps.length⟩
  else none

/-- Specification-side notion for claim C5: `base` is a strict ancestor of
`p` (both already resolved). -/
def StrictDescendant (base p : PyPath) : Prop :=
  base.absolute = p.absolute ∧ base.comps.length < p.comps.length ∧
    base.comps = p.comps.take base.comps.length

instance (base p : PyPath) : Decidable (StrictDescendant base p) := by
  unfold StrictDescendant; infer_instance

/-! ### `config.py`: configuration and output-path computation -/

/-- The configuration fields consulted by the build-graph engine
(`config.Config`).  `invoked_from` is `Path.cwd()` at startup and doubles as
the base for `Path.resolve`; `base_input_path` is always assigned by `main`
before planning starts. -/
structure Config where
  invoked_from : List String
  base_input_path : PyPath
  single_file_mode : Bool
  output_dir : Option PyPath
  recursive : Bool
deriving DecidableEq, Repr

/-- Models `Config.calculate_output_path` (`config.py` lines 67-80): hard error when
the resolved input is not strictly under the resolved base; otherwise the
input itself (in-place mode) or `output_dir / relative-path`, with a
case-insensitive `.md` suffix rewritten to `.html`. -/
def calcOutputPath (cfg : Config) (input_path : PyPath) : Except String PyPath :=
  let rbase := pyResolve cfg.invoked_from cfg.base_input_path
  let rin := pyResolve cfg.invoked_from input_path
  if rbase ∈ pyParents rin then
    match
      (match cfg.output_dir with
       | none => some input_path
       | some od => (pyRelativeTo rin rbase).map (fun rel => pyJoin od rel)) with
    | some output_file =>
        .ok
          (if pyLower (pySuffix output_file) = ".md" then pyWithSuffix output_file ".html"
           else output_file)
    | none => .error "relative_to failed"
  else .error "input is not under base input path"

/-! ### `buildgraph.py`: the build-target store and discovery -/

inductive BuildTargetType where
  | markdown
  | copy
  | dependency
  | execute
deriving DecidableEq, Repr

/-- Models `buildgraph.BuildTarget`. -/
structure BuildTarget where
  node_type : BuildTargetType
  input_path : PyPath
  output_path : Option PyPath
  dependencies : List DepRecord
  frontmatter : List (String × PyVal)
deriving DecidableEq, Repr

/-- Models `buildgraph.WatchTargets`: a set of resolved paths, modelled as a
duplicate-free insertion-ordered list. -/
structure WatchTargets where
  watched_files : List PyPath
deriving DecidableEq, Repr

/-- Models `WatchTargets.add_watched_file`: stores the resolved path. -/
def addWatchedFile (cwd : List String) (w : WatchTargets) (p : PyPath) : WatchTargets :=
  let r := pyResolve cwd p
  if r ∈ w.watched_files then w else ⟨w.watched_files ++ [r]⟩

/-- Models `buildgraph.BuildTargets`: insertion-ordered node map plus watch set. -/
structure BuildTargets where
  nodes : List (PyPath × BuildTarget)
  watch_targets : WatchTargets
deriving DecidableEq, Repr

def emptyBuildTargets : BuildTargets := ⟨[], ⟨[]⟩⟩

def graphKeys (g : BuildTargets) : List PyPath := g.nodes.map Prod.fst

/-- Models `BuildTargets.node_exists`. -/
def nodeExists (g : BuildTargets) (p : PyPath) : Bool := decide (p ∈ graphKeys g)

/-- The result of `parse_markdown_metadata`, supplied by the external
directive/front-matter provider. -/
structure MarkdownMetadata where
  dependencies : List DepRecord
  yaml_frontmatter : List (String × PyVal)
deriving DecidableEq, Repr

/-- Models `BuildTargets.add_node` (`buildgraph.py` lines 54-68): duplicate input
paths are a hard error; for markdown nodes the metadata provider is invoked,
and a provider failure leaves the node's (empty) dependencies and
front matter untouched — a warning, not an abort. -/
def addNode (meta : PyPath → Except String MarkdownMetadata) (g : BuildTargets)
    (node : BuildTarget) : Except String BuildTargets :=
  if nodeExists g node.input_path then .error "node already exists in build targets"
  else
    let node2 :=
      if node.node_type = .markdown ∧ pyLower (pySuffix node.input_path) = ".md" then
        match meta node.input_path with
        | .ok m => { node with dependencies := m.dependencies, frontmatter := m.yaml_frontmatter }
        | .error _ => node
      else node
    .ok { g with nodes := g.nodes ++ [(node.input_path, node2)] }

/-- Models `buildgraph.should_ignore_path`: hidden and underscore-led names. -/
def shouldIgnorePath (p : PyPath) : Bool :=
  pyStartsWith (pyName p) "_" || pyStartsWith (pyName p) "."

/-! The filesystem seen by discovery: a static tree of files and
directories; a directory holds an ordered listing of named entries. -/

mutual
inductive FSEntry where
  | file : FSEntry
  | dir : FSList → FSEntry
inductive FSList where
  | nil : FSList
  | cons : String → FSEntry → FSList → FSList
end

mutual
/-- Models `buildgraph.handle_target` (`buildgraph.py` lines 97-128) on an existing
entry (the not-found hard error concerns only dangling command-line
arguments, which a static tree cannot express). -/
def handleEntry (meta : PyPath → Except String MarkdownMetadata) (cfg : Config)
    (path : PyPath) (entry : FSEntry) (g : BuildTargets) : Except String BuildTargets :=
  if shouldIgnorePath path && !cfg.single_file_mode then .ok g
  else
    match entry with
    | .file =>
        match calcOutputPath cfg path with
        | .error e => .error e
        | .ok output0 =>
            let output_path :=
              match cfg.output_dir with
              | some od => if cfg.single_file_mode && (pySuffix od != "") then od else output0
              | none => output0
            if pyLower (pySuffix path) = ".md" then
              match addNode meta g ⟨.markdown, path, some output_path, [], []⟩ with
              | .error e => .error e
              | .ok g2 =>
                  .ok { g2 with
                        watch_targets := addWatchedFile cfg.invoked_from g2.watch_targets path }
            else
              if pyResolve cfg.invoked_from output_path ≠ pyResolve cfg.invoked_from path then
                match addNode meta g ⟨.copy, path, some output_path, [], []⟩ with
                | .error e => .error e
                | .ok g2 =>
                    .ok { g2 with
                          watch_targets := addWatchedFile cfg.invoked_from g2.watch_targets path }
              else .ok g
    | .dir children =>
        if !cfg.recursive then .error "directory requires recursive mode"
        else
          match cfg.output_dir with
          | some od =>
              if pyResolve cfg.invoked_from path = pyResolve cfg.invoked_from od ∧
                  pyResolve cfg.invoked_from cfg.base_input_path ∈
                    pyParents (pyResolve cfg.invoked_from od) then
                .ok g
              else handleList meta cfg path children g
          | none => handleList meta cfg path children g

/-- The `for item in path.iterdir()` loop of `handle_target`. -/
def handleList (meta : PyPath → Except String MarkdownMetadata) (cfg : Config)
    (dirPath : PyPath) (l : FSList) (g : BuildTargets) : Except String BuildTargets :=
  match l with
  | .nil => .ok g
  | .cons name e rest =>
      let child := pyJoinName dirPath name
      if shouldIgnorePath child then handleList meta cfg dirPath rest g
      else
        match handleEntry meta cfg child e g with
        | .error err => .error err
        | .ok g2 => handleList meta cfg dirPath rest g2
end

/-! ### The planner module (`claude-tmp-interface.py`) -/

/-- String form of a path (Python `str(Path)`), used by command templates. -/
def pyPathToString (p : PyPath) : String :=
  if p.absolute then "/" ++ String.intercalate "/" p.comps
  else if p.comps.isEmpty then "." else String.intercalate "/" p.comps

/-- Models `Path.stem`: the final component without its suffix. -/
def pyStem (p : PyPath) : String :=
  let name := pyName p
  let old := pySuffix p
  if old = "" then name else String.mk (name.data.take (name.data.length - old.data.length))

/-- Association-list lookup (Python dict read access). -/
def alookup {α β : Type} [DecidableEq α] : List (α × β) → α → Option β
  | [], _ => none
  | (k, v) :: rest, x => if k = x then some v else alookup rest x

/-- The planner's configuration fields (`claude-tmp-interface.Config`);
`output_dir` defaults to `Path('.')` in the source. -/
structure PlannerConfig where
  input_files : List PyPath
  output_file : Option PyPath
  output_dir : PyPath
  preserve_structure : Bool
  execute : Bool
  build_commands : List (String × String)
deriving DecidableEq, Repr

/-- Models `claude-tmp-interface.BuildItem`. -/
structure BuildItem where
  src : PyPath
  dest : PyPath
  include_dependencies : List PyPath
  build_dependencies : List PyPath
  build_command : Option String
  item_type : String
deriving DecidableEq, Repr

/-- The planner's mutable state: `build_items` (insertion-ordered dict) and
`dependency_graph` (dict of sets, modelled as duplicate-free lists). -/
structure PlannerState where
  build_items : List (PyPath × BuildItem)
  dependency_graph : List (PyPath × List PyPath)
deriving DecidableEq, Repr

def itemKeys (st : PlannerState) : List PyPath := st.build_items.map Prod.fst

def depGraphFn (st : PlannerState) (p : PyPath) : List PyPath :=
  (alookup st.dependency_graph p).getD []

/-- The relative-path search loop of `_determine_output_path`: the first
directory input the source lies under, else the source itself. -/
def findRelPath (isDir : PyPath → Bool) (src : PyPath) : List PyPath → PyPath
  | [] => src
  | ip :: rest =>
      if isDir ip then
        match pyRelativeTo src ip with
        | some rel => rel
        | none => findRelPath isDir src rest
      else findRelPath isDir src rest

/-- Models `BuildPlanner._determine_output_path` (`claude-tmp-interface.py` lines
110-143). -/
def determineOutputPath (pcfg : PlannerConfig) (isDir : PyPath → Bool) (src : PyPath) :
    PyPath :=
  match pcfg.output_file, pcfg.input_files.length with
  | some of, 1 => of
  | _, _ =>
      let rel_path := findRelPath isDir src pcfg.input_files
      let output_name :=
        if pySuffix src = ".md" then pyWithSuffix rel_path ".html"
        else pyJoinName (pyParent rel_path) (pyName rel_path ++ ".out")
      if pcfg.output_dir ≠ ⟨false, []⟩ then
        if pcfg.preserve_structure then pyJoin pcfg.output_dir output_name
        else pyJoinName pcfg.output_dir (pyName output_name)
      else pyJoinName (pyParent src) (pyName output_name)

/-- Models `BuildPlanner._create_markdown_build_item`. -/
def createMarkdownBuildItem (pcfg : PlannerConfig) (isDir : PyPath → Bool)
    (st : PlannerState) (src : PyPath) : PlannerState :=
  if src ∈ itemKeys st then st
  else
    { st with
      build_items :=
        st.build_items ++
          [(src, ⟨src, determineOutputPath pcfg isDir src, [], [], none, "markdown"⟩)] }

/-- Python string `format` for the command templates: textual substitution
of the braced keys. -/
def pyFormat (template : String) (subs : List (String × String)) : String :=
  subs.foldl (fun acc kv => acc.replace ("\x7b" ++ kv.1 ++ "\x7d") kv.2) template

/-- The built-in per-extension command table of `_create_code_build_item`. -/
def defaultCommands : List (String × String) :=
  [(".py", "python3 \x7bsrc\x7d > \x7bdest\x7d"),
   (".js", "node \x7bsrc\x7d > \x7bdest\x7d"),
   (".cpp", "g++ -o \x7bdest\x7d.exe \x7bsrc\x7d && \x7bdest\x7d.exe > \x7bdest\x7d"),
   (".c", "gcc -o \x7bdest\x7d.exe \x7bsrc\x7d && \x7bdest\x7d.exe > \x7bdest\x7d"),
   (".java", "javac \x7bsrc\x7d && java \x7bsrc_base\x7d > \x7bdest\x7d"),
   (".rs", "rustc \x7bsrc\x7d -o \x7bdest\x7d.exe && \x7bdest\x7d.exe > \x7bdest\x7d"),
   (".go", "go run \x7bsrc\x7d > \x7bdest\x7d"),
   (".rb", "ruby \x7bsrc\x7d > \x7bdest\x7d"),
   (".sh", "bash \x7bsrc\x7d > \x7bdest\x7d")]

/-- Python truthiness of an option value. -/
def pyTruthy : PyVal → Bool
  | .b bb => bb
  | .i n => n != 0
  | .s sv => sv != ""

/-- The `build_command` computation of `_create_code_build_item`
(`claude-tmp-interface.py` lines 181-209). -/
def determineBuildCommand (pcfg : PlannerConfig) (src dest : PyPath)
    (options : List (String × PyVal)) : Option String :=
  if pcfg.execute && pyTruthy ((alookup options "execute").getD (.b true)) then
    let ext := pySuffix src
    match alookup pcfg.build_commands ext with
    | some cmd =>
        some (pyFormat cmd [("src", pyPathToString src), ("dest", pyPathToString dest)])
    | none =>
        match alookup defaultCommands ext with
        | some cmd =>
            some (pyFormat cmd
              [("src", pyPathToString src), ("dest", pyPathToString dest),
               ("src_base", pyStem src)])
        | none => none
  else none

/-- Models `BuildPlanner._create_code_build_item`. -/
def createCodeBuildItem (pcfg : PlannerConfig) (isDir : PyPath → Bool)
    (st : PlannerState) (src : PyPath) (options : List (String × PyVal)) : PlannerState :=
  if src ∈ itemKeys st then st
  else
    let dest := determineOutputPath pcfg isDir src
    { st with
      build_items :=
        st.build_items ++
          [(src, ⟨src, dest, [], [], determineBuildCommand pcfg src dest options, "code"⟩)] }

/-- In-place mutation of one build item (Python mutates the shared object). -/
def updateItem (st : PlannerState) (k : PyPath) (f : BuildItem → BuildItem) : PlannerState :=
  { st with
    build_items := st.build_items.map (fun kv => if kv.1 = k then (kv.1, f kv.2) else kv) }

/-- Models `self.dependency_graph[item.src].add(dep_path)` on a defaultdict of sets. -/
def addEdge (st : PlannerState) (k dp : PyPath) : PlannerState :=
  { st with
    dependency_graph :=
      match alookup st.dependency_graph k with
      | some _ =>
          st.dependency_graph.map
            (fun kv =>
              if kv.1 = k then (kv.1, if dp ∈ kv.2 then kv.2 else kv.2 ++ [dp]) else kv)
      | none => st.dependency_graph ++ [(k, [dp])] }

/-- A record produced by the external `scan_markdown_dependencies`. -/
structure ScanDep where
  dtype : String
  path : String
  options : List (String × PyVal)
deriving DecidableEq, Repr

/-- The per-record body of `_scan_all_dependencies` (`claude-tmp-interface.py`
lines 156-172). -/
def processDepRecord (cwd : List String) (pcfg : PlannerConfig) (isDir : PyPath → Bool)
    (k : PyPath) (st : PlannerState) (dep : ScanDep) : PlannerState :=
  let dep_path := pyResolve cwd (pyJoin (pyParent k) (pyPathOfString dep.path))
  if dep.dtype = "include" then
    let st1 :=
      updateItem st k
        (fun it => { it with include_dependencies := it.include_dependencies ++ [dep_path] })
    if pySuffix dep_path = ".md" ∧ dep_path ∉ itemKeys st1 then
      createMarkdownBuildItem pcfg isDir st1 dep_path
    else st1
  else if dep.dtype = "src" then
    let st1 :=
      if dep_path ∉ itemKeys st then createCodeBuildItem pcfg isDir st dep_path dep.options
      else st
    let st2 :=
      updateItem st1 k
        (fun it => { it with build_dependencies := it.build_dependencies ++ [dep_path] })
    addEdge st2 k dep_path
  else st

/-- Models `BuildPlanner._scan_all_dependencies`: iterates over a snapshot of the
markdown items present before the scan; newly synthesized items are not
themselves scanned. -/
def scanAllDependencies (cwd : List String) (pcfg : PlannerConfig) (isDir : PyPath → Bool)
    (scanDeps : PyPath → List ScanDep) (st : PlannerState) : PlannerState :=
  let markdownKeys :=
    (st.build_items.filter (fun kv => kv.2.item_type == "markdown")).map Prod.fst
  markdownKeys.foldl
    (fun st1 k => (scanDeps k).foldl (fun st2 dep => processDepRecord cwd pcfg isDir k st2 dep) st1)
    st

/-! ### `BuildPlanner._topological_sort`: Kahn's algorithm -/

section Topo

variable {P : Type} [DecidableEq P]

/-- Zero-based index of the first occurrence of `x` in `l`. -/
def posIn : List P → P → Nat
  | [], _ => 0
  | a :: t, x => if a = x then 0 else posIn t x + 1

/-- The inner `for dependent in self.dependency_graph[current]` loop:
decrement each in-degree, enqueueing entries that reach zero. -/
def processDeps : List P → List P → (P → Int) → List P × (P → Int)
  | [], queue, indeg => (queue, indeg)
  | d :: ds, queue, indeg =>
      let indeg2 : P → Int := fun p => if p = d then indeg p - 1 else indeg p
      let queue2 := if indeg2 d = 0 then queue ++ [d] else queue
      processDeps ds queue2 indeg2

/-- The `while queue` loop.  The fuel `nodes.length` is an upper bound on the
number of iterations the Python loop can perform (each iteration appends a
fresh node to the result), so the bounded loop agrees with the unbounded
one; this is proved alongside the loop invariants below. -/
def kahnLoop (graph : P → List P) : Nat → List P → (P → Int) → List P → List P
  | 0, _, _, result => result
  | _ + 1, [], _, result => result
  | fuel + 1, current :: rest, indeg, result =>
      let st := processDeps (graph current) rest indeg
      kahnLoop graph fuel st.1 st.2 (result ++ [current])

/-- The in-degree table: for each `d`, how many sources list `d` as a build
dependency (`in_degree[dep] += 1` over all edges). -/
def initIndeg (nodes : List P) (graph : P → List P) (d : P) : Int :=
  ((nodes.filter (fun s => decide (d ∈ graph s))).length : Int)

/-- The initial queue: nodes no other node depends on, in insertion order. -/
def kahnStartQueue (nodes : List P) (graph : P → List P) : List P :=
  nodes.filter (fun s => decide (initIndeg nodes graph s = 0))

/-- The (un-reversed) result list built by the Python loop. -/
def kahnResult (nodes : List P) (graph : P → List P) : List P :=
  kahnLoop graph nodes.length (kahnStartQueue nodes graph) (initIndeg nodes graph) []

/-- Models `BuildPlanner._topological_sort` (`claude-tmp-interface.py` lines
220-249): the reversed Kahn order, or a cycle error naming every node not
placed in the partial result. -/
def topologicalSort (nodes : List P) (graph : P → List P) : Except (List P) (List P) :=
  if (kahnResult nodes graph).length = nodes.length then .ok (kahnResult nodes graph).reverse
  else .error (nodes.filter (fun s => decide (s ∉ kahnResult nodes graph)))

/-- The build-dependency relation: `depRel graph a b` when `a` depends on `b`. -/
def depRel (graph : P → List P) (a b : P) : Prop := b ∈ graph a

/-- No node build-depends on itself through any chain of edges. -/
def Acyclic (graph : P → List P) : Prop := ∀ a, ¬ Relation.TransGen (depRel graph) a a

/-- Well-formedness guaranteed by the planner: distinct node keys,
duplicate-free adjacency sets, and edges targeting known nodes. -/
def TopoWf (nodes : List P) (graph : P → List P) : Prop :=
  nodes.Nodup ∧ (∀ s ∈ nodes, (graph s).Nodup) ∧ (∀ s ∈ nodes, ∀ d ∈ graph s, d ∈ nodes)

instance (nodes : List P) (graph : P → List P) : Decidable (TopoWf nodes graph) := by
  unfold TopoWf
  infer_instance

end Topo

/-- Models `BuildPlanner.plan_build`: create items for the markdown inputs, expand
dependencies, and return the dependency-first order (or the cycle error). -/
def planBuild (cwd : List String) (pcfg : PlannerConfig) (isDir : PyPath → Bool)
    (scanDeps : PyPath → List ScanDep) (input_files : List PyPath) :
    Except (List PyPath) (List BuildItem) :=
  let st0 := input_files.foldl (fun st f => createMarkdownBuildItem pcfg isDir st f) ⟨[], []⟩
  let st := scanAllDependencies cwd pcfg isDir scanDeps st0
  match topologicalSort (itemKeys st) (depGraphFn st) with
  | .ok order => .ok (order.filterMap (alookup st.build_items))
  | .error remaining => .error remaining

/-! ### Invariants and relations used by the verification -/

/-- The number of entries of `l` that are outside `r` and list `d` as a
build dependency: the in-degree of `d` counting only unprocessed sources. -/
def depCount {P : Type} [DecidableEq P] (graph : P → List P) (r : List P) (d : P) :
    List P → Nat
  | [] => 0
  | s :: t => (if s ∉ r ∧ d ∈ graph s then 1 else 0) + depCount graph r d t

/-- Loop invariant of the Kahn `while` loop, at the head of an iteration
with remaining fuel `fuel`, queue `q`, in-degree table `f` and partial
result `r`. -/
def KahnInv {P : Type} [DecidableEq P] (nodes : List P) (graph : P → List P)
    (fuel : Nat) (q : List P) (f : P → Int) (r : List P) : Prop :=
  r.Nodup ∧ q.Nodup ∧ (∀ x ∈ q, x ∉ r) ∧ (∀ x ∈ r, x ∈ nodes) ∧ (∀ x ∈ q, x ∈ nodes) ∧
    (∀ d, f d = (depCount graph r d nodes : Int)) ∧
    (∀ d ∈ nodes, (f d = 0 ↔ d ∈ q ∨ d ∈ r)) ∧
    (∀ d ∈ r, ∀ s ∈ nodes, d ∈ graph s → s ∈ r ∧ posIn r s < posIn r d) ∧
    nodes.length ≤ fuel + r.length

/-- What the Kahn loop guarantees about its final result `R`, started from
partial result `r`: the result extends `r`, stays a duplicate-free selection
of nodes, places every node after all its dependents, and any node left out
has a dependent that is also left out. -/
def KahnOut {P : Type} [DecidableEq P] (nodes : List P) (graph : P → List P)
    (r R : List P) : Prop :=
  (∃ t, R = r ++ t) ∧ R.Nodup ∧ (∀ x ∈ R, x ∈ nodes) ∧
    (∀ d ∈ R, ∀ s ∈ nodes, d ∈ graph s → s ∈ R ∧ posIn R s < posIn R d) ∧
    (∀ d ∈ nodes, d ∉ R → ∃ s, s ∈ nodes ∧ s ∉ R ∧ d ∈ graph s)

/-- The (amended) watch-set invariant: the watch set holds exactly the
resolved input paths of the Targets currently in the graph. -/
def WatchInv (cfg : Config) (g : BuildTargets) : Prop :=
  ∀ x : PyPath,
    x ∈ g.watch_targets.watched_files ↔
      ∃ q ∈ graphKeys g, pyResolve cfg.invoked_from q = x

/-- Two graphs with the same node keys and watch set (their targets may
carry different metadata). -/
def SameShape (g1 g2 : BuildTargets) : Prop :=
  graphKeys g1 = graphKeys g2 ∧ g1.watch_targets = g2.watch_targets

/-- Models `SameShape` lifted to discovery results: identical errors, or graphs of
the same shape. -/
def SameShapeRes : Except String BuildTargets → Except String BuildTargets → Prop
  | .error e1, .error e2 => e1 = e2
  | .ok g1, .ok g2 => SameShape g1 g2
  | _, _ => False

/-- Build-target stores reachable by the operations the discovery code
performs: starting empty, adding nodes through `add_node`, and adding
watched files. -/
inductive Reachable (meta : PyPath → Except String MarkdownMetadata) : BuildTargets → Prop where
  | base : Reachable meta emptyBuildTargets
  | node {g g' : BuildTargets} {n : BuildTarget} :
      Reachable meta g → addNode meta g n = .ok g' → Reachable meta g'
  | watch {g : BuildTargets} (cwd : List String) (p : PyPath) :
      Reachable meta g → Reachable meta ⟨g.nodes, addWatchedFile cwd g.watch_targets p⟩

/-! ### Concrete scenarios used by the claims -/

/-- A metadata provider for files without directives or front matter. -/
def mEmptyMeta : PyPath → Except String MarkdownMetadata := fun _ => .ok ⟨[], []⟩

/-- C1 scenario: `note.md` declaring `@include(other.md)` and
`@src(hello.cpp)`, planned from working directory `/home`. -/
def c1Note : PyPath := ⟨false, ["base", "note.md"]⟩

def c1Other : PyPath := ⟨true, ["home", "base", "other.md"]⟩

def c1Cpp : PyPath := ⟨true, ["home", "base", "hello.cpp"]⟩

def c1Pcfg : PlannerConfig := ⟨[c1Note], none, ⟨false, []⟩, true, false, []⟩

def c1IsDir : PyPath → Bool := fun _ => false

def c1Scan : PyPath → List ScanDep := fun p =>
  if p = c1Note then [⟨"include", "other.md", []⟩, ⟨"src", "hello.cpp", []⟩] else []

def c1Meta : PyPath → Except String MarkdownMetadata := fun p =>
  if p = c1Note then .ok ⟨[⟨"other.md", []⟩, ⟨"hello.cpp", []⟩], []⟩ else .ok ⟨[], []⟩

def c1Cfg : Config := ⟨["home"], ⟨false, []⟩, true, none, false⟩

def c1CppItem : BuildItem :=
  ⟨c1Cpp, ⟨true, ["home", "base", "hello.cpp.out"]⟩, [], [], none, "code"⟩

def c1OtherItem : BuildItem :=
  ⟨c1Other, ⟨true, ["home", "base", "other.html"]⟩, [], [], none, "markdown"⟩

def c1NoteItem : BuildItem :=
  ⟨c1Note, ⟨false, ["base", "note.html"]⟩, [c1Other], [c1Cpp], none, "markdown"⟩

/-- C2 scenario: a single markdown file whose metadata declares one
dependency; discovery from working directory `/home`. -/
def c2Note : PyPath := ⟨false, ["note.md"]⟩

def c2Cfg : Config := ⟨["home"], ⟨false, []⟩, true, none, false⟩

def c2Meta : PyPath → Except String MarkdownMetadata := fun p =>
  if p = c2Note then .ok ⟨[⟨"other.md", []⟩], []⟩ else .ok ⟨[], []⟩

/-- The resolved path of the declared dependency `other.md`. -/
def c2DepResolved : PyPath := ⟨true, ["home", "other.md"]⟩

/-- The graph produced by the C2 discovery run. -/
def c2Graph : BuildTargets :=
  ⟨[(c2Note, ⟨.markdown, c2Note, some ⟨false, ["note.html"]⟩, [⟨"other.md", []⟩], []⟩)],
    ⟨[⟨true, ["home", "note.md"]⟩]⟩⟩

/-- C7 scenarios: output root `out` under base `.`; an underscore directory
argument, and the `tool html -o html` invocation. -/
def c7Cfg : Config := ⟨["home"], ⟨false, []⟩, false, some ⟨false, ["out"]⟩, true⟩

def c7Hidden : PyPath := ⟨false, ["_build"]⟩

def c7Plain : PyPath := ⟨false, ["build"]⟩

def c7Children : FSList := .cons "x.md" .file .nil

def c7HtmlCfg : Config := ⟨["home"], ⟨false, ["html"]⟩, false, some ⟨false, ["html"]⟩, true⟩

def c7HtmlDir : PyPath := ⟨false, ["html"]⟩

def c7HtmlGraph : BuildTargets :=
  ⟨[(⟨false, ["html", "note.md"]⟩,
      ⟨.markdown, ⟨false, ["html", "note.md"]⟩, some ⟨false, ["html", "note.html"]⟩, [], []⟩)],
    ⟨[⟨true, ["home", "html", "note.md"]⟩]⟩⟩

/-- C5/C8 witness configurations. -/
def c5Cfg : Config := ⟨["home"], ⟨false, []⟩, false, none, false⟩

def c5In : PyPath := ⟨false, ["a.md"]⟩

def c8Cfg : Config := ⟨["home"], ⟨false, []⟩, false, some ⟨false, ["out"]⟩, false⟩

def c8In : PyPath := ⟨false, ["sub", "pic.png"]⟩

/-- C6 witness data. -/
def c6Path : PyPath := ⟨false, ["c6.md"]⟩

def c6Node : BuildTarget := ⟨.markdown, c6Path, some ⟨false, ["c6.html"]⟩, [], []⟩

/-- C9 witness data: a provider that fails on one file. -/
def c9Path : PyPath := ⟨false, ["bad.md"]⟩

def c9Meta : PyPath → Except String MarkdownMetadata := fun _ => .error "malformed"

def c9Node : BuildTarget := ⟨.markdown, c9Path, some ⟨false, ["bad.html"]⟩, [], []⟩

/-- C3/C4 witness graphs over `Nat` nodes. -/
def w3Graph : Nat → List Nat := fun n => if n = 1 then [2] else []

def w4Graph : Nat → List Nat := fun n => if n = 1 then [2] else if n = 2 then [1] else []

/-! ### List and counting lemmas -/

section ListLemmas

variable {P : Type} [DecidableEq P]

theorem posIn_append_of_mem {l1 : List P} (l2 : List P) {x : P} (h : x ∈ l1) :
    posIn (l1 ++ l2) x = posIn l1 x := by
  induction l1 with
  | nil => cases h
  | cons a t ih =>
    by_cases hax : a = x
    · simp [posIn, hax]
    · rcases List.mem_cons.mp h with h1 | h1
      · exact absurd h1.symm hax
      · simp [posIn, hax, ih h1]

theorem posIn_append_of_not_mem {l1 : List P} (l2 : List P) {x : P} (h : x ∉ l1) :
    posIn (l1 ++ l2) x = l1.length + posIn l2 x := by
  induction l1 with
  | nil => simp
  | cons a t ih =>
    have hax : a ≠ x := by
      intro hh
      exact h (hh ▸ List.mem_cons_self a t)
    have hxt : x ∉ t := fun hh => h (List.mem_cons_of_mem a hh)
    rw [List.cons_append]
    simp only [posIn, if_neg hax, List.length_cons]
    rw [ih hxt]
    omega

theorem posIn_lt_length {l : List P} {x : P} (h : x ∈ l) : posIn l x < l.length := by
  induction l with
  | nil => cases h
  | cons a t ih =>
    by_cases hax : a = x
    · simp [posIn, hax]
    · rcases List.mem_cons.mp h with h1 | h1
      · exact absurd h1.symm hax
      · simp only [posIn, if_neg hax, List.length_cons]
        exact Nat.succ_lt_succ (ih h1)

theorem posIn_reverse {l : List P} (h : l.Nodup) {x : P} (hx : x ∈ l) :
    posIn l.reverse x = l.length - 1 - posIn l x := by
  induction l with
  | nil => cases hx
  | cons a t ih =>
    rcases List.nodup_cons.mp h with ⟨hat, htn⟩
    by_cases hax : a = x
    · subst hax
      have hnr : a ∉ t.reverse := by simpa using hat
      rw [List.reverse_cons, posIn_append_of_not_mem _ hnr]
      simp [posIn]
    · rcases List.mem_cons.mp hx with h1 | h1
      · exact absurd h1.symm hax
      · have hxr : x ∈ t.reverse := by simpa using h1
        have hb := posIn_lt_length h1
        rw [List.reverse_cons, posIn_append_of_mem _ hxr, ih htn h1]
        simp only [posIn, if_neg hax, List.length_cons, List.length_reverse]
        omega

theorem nodup_sub_length_le {r nodes : List P} (hr : r.Nodup)
    (hsub : ∀ x ∈ r, x ∈ nodes) : r.length ≤ nodes.length := by
  have h1 : r.toFinset.card = r.length := List.toFinset_card_of_nodup hr
  have h2 : r.toFinset ⊆ nodes.toFinset := by
    intro x hx
    exact List.mem_toFinset.mpr (hsub x (List.mem_toFinset.mp hx))
  have h3 := Finset.card_le_card h2
  have h4 := List.toFinset_card_le nodes
  omega

theorem nodup_sub_full {r nodes : List P} (hr : r.Nodup) (hsub : ∀ x ∈ r, x ∈ nodes)
    (hlen : nodes.length ≤ r.length) : ∀ d ∈ nodes, d ∈ r := by
  have h1 : r.toFinset.card = r.length := List.toFinset_card_of_nodup hr
  have h2 : r.toFinset ⊆ nodes.toFinset := by
    intro x hx
    exact List.mem_toFinset.mpr (hsub x (List.mem_toFinset.mp hx))
  have h3 := List.toFinset_card_le nodes
  have h4 : nodes.toFinset.card ≤ r.toFinset.card := by omega
  have h5 : r.toFinset = nodes.toFinset := Finset.eq_of_subset_of_card_le h2 h4
  intro d hd
  have : d ∈ r.toFinset := by
    rw [h5]
    exact List.mem_toFinset.mpr hd
  exact List.mem_toFinset.mp this

theorem depCount_eq_zero {graph : P → List P} {r : List P} {d : P} {l : List P} :
    depCount graph r d l = 0 ↔ ∀ s ∈ l, s ∉ r → d ∉ graph s := by
  induction l with
  | nil => simp [depCount]
  | cons a t ih =>
    by_cases ha : a ∉ r ∧ d ∈ graph a
    · simp only [depCount, if_pos ha]
      constructor
      · omega
      · intro hall
        exact absurd ha.2 (hall a (List.mem_cons_self a t) ha.1)
    · simp only [depCount, if_neg ha, Nat.zero_add, ih]
      constructor
      · intro hall s hs hsr
        rcases List.mem_cons.mp hs with h1 | h1
        · subst h1
          intro hdg
          exact ha ⟨hsr, hdg⟩
        · exact hall s h1 hsr
      · intro hall s hs hsr
        exact hall s (List.mem_cons_of_mem a hs) hsr

theorem depCount_pos {graph : P → List P} {r : List P} {d : P} {l : List P}
    (h : depCount graph r d l ≠ 0) : ∃ s ∈ l, s ∉ r ∧ d ∈ graph s := by
  by_contra hcon
  push_neg at hcon
  exact h (depCount_eq_zero.mpr (fun s hs hsr => hcon s hs hsr))

theorem depCount_irrel {graph : P → List P} {r : List P} {d c : P} {l : List P}
    (hct : c ∉ l) : depCount graph (r ++ [c]) d l = depCount graph r d l := by
  induction l with
  | nil => simp [depCount]
  | cons a t ih =>
    have hac : a ≠ c := by
      intro hh
      exact hct (hh ▸ List.mem_cons_self a t)
    have hmem : (a ∉ r ++ [c]) ↔ (a ∉ r) := by simp [hac]
    have hct' : c ∉ t := fun hh => hct (List.mem_cons_of_mem a hh)
    simp only [depCount, ih hct']
    by_cases ha : a ∉ r ∧ d ∈ graph a
    · rw [if_pos ha, if_pos ⟨hmem.mpr ha.1, ha.2⟩]
    · rw [if_neg ha, if_neg (fun hcon => ha ⟨hmem.mp hcon.1, hcon.2⟩)]

theorem depCount_step {graph : P → List P} {r : List P} {c : P} (hc : c ∉ r)
    {l : List P} (hl : l.Nodup) (d : P) :
    depCount graph r d l =
      depCount graph (r ++ [c]) d l + (if c ∈ l ∧ d ∈ graph c then 1 else 0) := by
  induction l with
  | nil => simp [depCount]
  | cons a t ih =>
    rcases List.nodup_cons.mp hl with ⟨hat, htn⟩
    by_cases hac : a = c
    · subst hac
      have h1 : (a ∉ r ∧ d ∈ graph a) ↔ (d ∈ graph a) := by
        constructor
        · exact fun hh => hh.2
        · exact fun hh => ⟨hc, hh⟩
      have h2 : ¬(a ∉ r ++ [a] ∧ d ∈ graph a) := by
        intro hh
        exact hh.1 (by simp)
      have h3 : a ∈ a :: t := List.mem_cons_self a t
      simp only [depCount, if_neg h2, Nat.zero_add, depCount_irrel hat]
      by_cases hga : d ∈ graph a
      · rw [if_pos (h1.mpr hga), if_pos ⟨h3, hga⟩]
        omega
      · rw [if_neg (fun hh => hga hh.2), if_neg (fun hh => hga hh.2)]
        omega
    · have hmem : (a ∉ r ++ [c]) ↔ (a ∉ r) := by simp [hac]
      have hcc : (c ∈ a :: t ∧ d ∈ graph c) ↔ (c ∈ t ∧ d ∈ graph c) := by
        constructor
        · intro hh
          rcases List.mem_cons.mp hh.1 with h1 | h1
          · exact absurd h1.symm hac
          · exact ⟨h1, hh.2⟩
        · exact fun hh => ⟨List.mem_cons_of_mem a hh.1, hh.2⟩
      have e1 : (if a ∉ r ∧ d ∈ graph a then (1 : Nat) else 0) =
          (if a ∉ r ++ [c] ∧ d ∈ graph a then 1 else 0) := by
        by_cases ha : a ∉ r ∧ d ∈ graph a
        · rw [if_pos ha, if_pos ⟨hmem.mpr ha.1, ha.2⟩]
        · rw [if_neg ha, if_neg (fun hcon => ha ⟨hmem.mp hcon.1, hcon.2⟩)]
      have e2 : (if c ∈ a :: t ∧ d ∈ graph c then (1 : Nat) else 0) =
          (if c ∈ t ∧ d ∈ graph c then 1 else 0) := by
        rcases Classical.em (c ∈ t ∧ d ∈ graph c) with hcd | hcd
        · rw [if_pos (hcc.mpr hcd), if_pos hcd]
        · rw [if_neg (fun hh => hcd (hcc.mp hh)), if_neg hcd]
      simp only [depCount, ih htn, e1, e2]
      omega

theorem initIndeg_eq_depCount (nodes : List P) (graph : P → List P) (d : P) :
    initIndeg nodes graph d = (depCount graph [] d nodes : Int) := by
  unfold initIndeg
  norm_cast
  induction nodes with
  | nil => simp [depCount]
  | cons a t ih =>
    rw [List.filter_cons]
    by_cases hga : d ∈ graph a
    · rw [if_pos (by simp [hga])]
      simp only [depCount,
        if_pos (show a ∉ ([] : List P) ∧ d ∈ graph a from ⟨by simp, hga⟩),
        List.length_cons, ih]
      omega
    · rw [if_neg (by simp [hga])]
      simp only [depCount,
        if_neg (show ¬(a ∉ ([] : List P) ∧ d ∈ graph a) from fun hh => hga hh.2),
        Nat.zero_add, ih]

end ListLemmas

/-! ### Correctness of the Kahn loop -/

section TopoProofs

variable {P : Type} [DecidableEq P]

theorem processDeps_spec (nodes : List P) (graph : P → List P) (r2 : List P) :
    ∀ (D q : List P) (f : P → Int),
      D.Nodup → (∀ d ∈ D, d ∈ nodes) →
      q.Nodup → (∀ x ∈ q, x ∈ nodes) → (∀ x ∈ q, x ∉ r2) →
      (∀ d, f d = (depCount graph r2 d nodes : Int) + (if d ∈ D then 1 else 0)) →
      (∀ d ∈ nodes, d ∉ D → (f d = 0 ↔ d ∈ q ∨ d ∈ r2)) →
      (∀ d ∈ D, d ∉ q ∧ d ∉ r2) →
      (processDeps D q f).1.Nodup ∧
        (∀ x ∈ (processDeps D q f).1, x ∈ nodes) ∧
        (∀ x ∈ (processDeps D q f).1, x ∉ r2) ∧
        (∀ d, (processDeps D q f).2 d = (depCount graph r2 d nodes : Int)) ∧
        (∀ d ∈ nodes, ((processDeps D q f).2 d = 0 ↔ d ∈ (processDeps D q f).1 ∨ d ∈ r2)) := by
  intro D
  induction D with
  | nil =>
    intro q f _ _ hqN hqSub hqR hf hiff _
    refine ⟨hqN, hqSub, hqR, ?_, ?_⟩
    · intro d
      have h1 := hf d
      simpa using h1
    · intro d hd
      have h1 := hiff d hd (by simp)
      simpa [processDeps] using h1
  | cons d0 ds ih =>
    intro q f hDN hDSub hqN hqSub hqR hf hiff hfresh
    rcases List.nodup_cons.mp hDN with ⟨hd0ds, hdsN⟩
    have hd0nodes : d0 ∈ nodes := hDSub d0 (List.mem_cons_self d0 ds)
    rcases hfresh d0 (List.mem_cons_self d0 ds) with ⟨hd0q, hd0r⟩
    have hfd0 : f d0 = (depCount graph r2 d0 nodes : Int) + 1 := by
      have h1 := hf d0
      simpa using h1
    have hstep : processDeps (d0 :: ds) q f =
        processDeps ds (if f d0 - 1 = 0 then q ++ [d0] else q)
          (fun p => if p = d0 then f p - 1 else f p) := by
      simp [processDeps]
    have hq2N : (if f d0 - 1 = 0 then q ++ [d0] else q).Nodup := by
      by_cases h0 : f d0 - 1 = 0
      · rw [if_pos h0]
        simp [List.nodup_append, hqN, hd0q]
      · rw [if_neg h0]
        exact hqN
    have hq2Sub : ∀ x ∈ (if f d0 - 1 = 0 then q ++ [d0] else q), x ∈ nodes := by
      intro x hx
      by_cases h0 : f d0 - 1 = 0
      · rw [if_pos h0] at hx
        rcases List.mem_append.mp hx with h1 | h1
        · exact hqSub x h1
        · simp at h1
          exact h1 ▸ hd0nodes
      · rw [if_neg h0] at hx
        exact hqSub x hx
    have hq2R : ∀ x ∈ (if f d0 - 1 = 0 then q ++ [d0] else q), x ∉ r2 := by
      intro x hx
      by_cases h0 : f d0 - 1 = 0
      · rw [if_pos h0] at hx
        rcases List.mem_append.mp hx with h1 | h1
        · exact hqR x h1
        · simp at h1
          exact h1 ▸ hd0r
      · rw [if_neg h0] at hx
        exact hqR x hx
    have hf2 : ∀ d, (fun p => if p = d0 then f p - 1 else f p) d =
        (depCount graph r2 d nodes : Int) + (if d ∈ ds then 1 else 0) := by
      intro d
      show (if d = d0 then f d - 1 else f d) =
        (depCount graph r2 d nodes : Int) + (if d ∈ ds then 1 else 0)
      by_cases hd : d = d0
      · subst hd
        rw [if_pos rfl, if_neg hd0ds, hfd0]
        omega
      · rw [if_neg hd]
        rw [hf d]
        have h1 : (d ∈ d0 :: ds) ↔ (d ∈ ds) := by
          constructor
          · intro hh
            rcases List.mem_cons.mp hh with h2 | h2
            · exact absurd h2 hd
            · exact h2
          · exact List.mem_cons_of_mem d0
        by_cases h2 : d ∈ ds
        · rw [if_pos (h1.mpr h2), if_pos h2]
        · rw [if_neg (fun hh => h2 (h1.mp hh)), if_neg h2]
    have hiff2 : ∀ d ∈ nodes, d ∉ ds →
        ((fun p => if p = d0 then f p - 1 else f p) d = 0 ↔
          d ∈ (if f d0 - 1 = 0 then q ++ [d0] else q) ∨ d ∈ r2) := by
      intro d hd hdds
      show (if d = d0 then f d - 1 else f d) = 0 ↔
        d ∈ (if f d0 - 1 = 0 then q ++ [d0] else q) ∨ d ∈ r2
      by_cases hdd0 : d = d0
      · subst hdd0
        rw [if_pos rfl]
        constructor
        · intro h0
          rw [if_pos h0]
          exact Or.inl (by simp)
        · intro h1
          by_cases h0 : f d - 1 = 0
          · exact h0
          · rw [if_neg h0] at h1
            rcases h1 with h1 | h1
            · exact absurd h1 hd0q
            · exact absurd h1 hd0r
      · rw [if_neg hdd0]
        rw [hiff d hd (fun hh => (by
          rcases List.mem_cons.mp hh with h2 | h2
          · exact hdd0 h2
          · exact hdds h2))]
        by_cases h0 : f d0 - 1 = 0
        · rw [if_pos h0]
          constructor
          · intro h1
            rcases h1 with h1 | h1
            · exact Or.inl (List.mem_append_left _ h1)
            · exact Or.inr h1
          · intro h1
            rcases h1 with h1 | h1
            · rcases List.mem_append.mp h1 with h2 | h2
              · exact Or.inl h2
              · simp at h2
                exact absurd h2 hdd0
            · exact Or.inr h1
        · rw [if_neg h0]
    have hfresh2 : ∀ d ∈ ds, d ∉ (if f d0 - 1 = 0 then q ++ [d0] else q) ∧ d ∉ r2 := by
      intro d hd
      rcases hfresh d (List.mem_cons_of_mem d0 hd) with ⟨h1, h2⟩
      have hdd0 : d ≠ d0 := fun hh => hd0ds (hh ▸ hd)
      refine ⟨?_, h2⟩
      by_cases h0 : f d0 - 1 = 0
      · rw [if_pos h0]
        intro hx
        rcases List.mem_append.mp hx with h3 | h3
        · exact h1 h3
        · simp at h3
          exact hdd0 h3
      · rw [if_neg h0]
        exact h1
    have happ := ih (if f d0 - 1 = 0 then q ++ [d0] else q)
      (fun p => if p = d0 then f p - 1 else f p) hdsN
      (fun d hd => hDSub d (List.mem_cons_of_mem d0 hd)) hq2N hq2Sub hq2R hf2 hiff2 hfresh2
    rw [hstep]
    exact happ

theorem kahnLoop_spec (nodes : List P) (graph : P → List P) (hwf : TopoWf nodes graph) :
    ∀ (fuel : Nat) (q : List P) (f : P → Int) (r : List P),
      KahnInv nodes graph fuel q f r →
      KahnOut nodes graph r (kahnLoop graph fuel q f r) := by
  intro fuel
  induction fuel with
  | zero =>
    intro q f r hinv
    obtain ⟨hrN, _, _, hrSub, _, _, _, horder, hfuel⟩ := hinv
    simp only [kahnLoop]
    exact ⟨⟨[], by simp⟩, hrN, hrSub, horder,
      fun d hd hdr => absurd (nodup_sub_full hrN hrSub (by omega) d hd) hdr⟩
  | succ fuel ih =>
    intro q f r hinv
    obtain ⟨hrN, hqN, hdisj, hrSub, hqSub, hcount, hiff, horder, hfuel⟩ := hinv
    cases q with
    | nil =>
      simp only [kahnLoop]
      refine ⟨⟨[], by simp⟩, hrN, hrSub, horder, ?_⟩
      intro d hd hdr
      have hne : f d ≠ 0 := by
        intro h0
        rcases (hiff d hd).mp h0 with h1 | h1
        · exact absurd h1 (List.not_mem_nil d)
        · exact hdr h1
      have hc : depCount graph r d nodes ≠ 0 := by
        intro hh
        apply hne
        rw [hcount d, hh]
        simp
      rcases depCount_pos hc with ⟨s, hs1, hs2, hs3⟩
      exact ⟨s, hs1, hs2, hs3⟩
    | cons current rest =>
      have hcur_q : current ∈ current :: rest := List.mem_cons_self _ _
      have hcur_nodes : current ∈ nodes := hqSub current hcur_q
      have hcur_r : current ∉ r := hdisj current hcur_q
      have hcur_f : f current = 0 := (hiff current hcur_nodes).mpr (Or.inl hcur_q)
      have hcur_count : depCount graph r current nodes = 0 := by
        have h1 := hcount current
        rw [hcur_f] at h1
        exact_mod_cast h1.symm
      have hprocessed : ∀ s ∈ nodes, current ∈ graph s → s ∈ r := by
        intro s hs hg
        by_contra hsr
        exact absurd hg (depCount_eq_zero.mp hcur_count s hs hsr)
      have hcurrest : current ∉ rest := (List.nodup_cons.mp hqN).1
      have hrestN : rest.Nodup := (List.nodup_cons.mp hqN).2
      have hr2N : (r ++ [current]).Nodup := by
        simp [List.nodup_append, hrN, hcur_r]
      have hDN : (graph current).Nodup := hwf.2.1 current hcur_nodes
      have hDSub : ∀ d ∈ graph current, d ∈ nodes :=
        fun d hd => hwf.2.2 current hcur_nodes d hd
      have hrestSub : ∀ x ∈ rest, x ∈ nodes :=
        fun x hx => hqSub x (List.mem_cons_of_mem _ hx)
      have hrestR2 : ∀ x ∈ rest, x ∉ r ++ [current] := by
        intro x hx
        have h1 : x ∉ r := hdisj x (List.mem_cons_of_mem _ hx)
        have h2 : x ≠ current := fun hh => hcurrest (hh ▸ hx)
        simp [h1, h2]
      have hf6 : ∀ d, f d =
          (depCount graph (r ++ [current]) d nodes : Int) +
            (if d ∈ graph current then 1 else 0) := by
        intro d
        rw [hcount d, depCount_step hcur_r hwf.1 d]
        have h1 : (current ∈ nodes ∧ d ∈ graph current) ↔ (d ∈ graph current) :=
          ⟨fun hh => hh.2, fun hh => ⟨hcur_nodes, hh⟩⟩
        by_cases hdg : d ∈ graph current
        · rw [if_pos (h1.mpr hdg), if_pos hdg]
          push_cast
          ring
        · rw [if_neg (fun hh => hdg (h1.mp hh)), if_neg hdg]
          push_cast
          ring
      have hf7 : ∀ d ∈ nodes, d ∉ graph current →
          (f d = 0 ↔ d ∈ rest ∨ d ∈ r ++ [current]) := by
        intro d hd _
        rw [hiff d hd]
        constructor
        · intro h1
          rcases h1 with h1 | h1
          · rcases List.mem_cons.mp h1 with h2 | h2
            · exact Or.inr (by simp [h2])
            · exact Or.inl h2
          · exact Or.inr (by simp [h1])
        · intro h1
          rcases h1 with h1 | h1
          · exact Or.inl (List.mem_cons_of_mem _ h1)
          · rcases List.mem_append.mp h1 with h2 | h2
            · exact Or.inr h2
            · simp at h2
              exact Or.inl (h2 ▸ hcur_q)
      have hf8 : ∀ d ∈ graph current, d ∉ rest ∧ d ∉ r ++ [current] := by
        intro d hd
        have hdn : d ∈ nodes := hDSub d hd
        have hfd : f d ≠ 0 := by
          rw [hf6 d, if_pos hd]
          have hge : (0 : Int) ≤ (depCount graph (r ++ [current]) d nodes : Int) := by
            positivity
          omega
        have hnq : ¬(d ∈ current :: rest ∨ d ∈ r) := fun hh => hfd ((hiff d hdn).mpr hh)
        push_neg at hnq
        have h2 : d ∉ rest := fun hh => hnq.1 (List.mem_cons_of_mem _ hh)
        have h3 : d ≠ current := fun hh => hnq.1 (hh ▸ hcur_q)
        exact ⟨h2, by simp [hnq.2, h3]⟩
      obtain ⟨o1, o2, o3, o4, o5⟩ :=
        processDeps_spec nodes graph (r ++ [current]) (graph current) rest f hDN hDSub
          hrestN hrestSub hrestR2 hf6 hf7 hf8
      have hr2Sub : ∀ x ∈ r ++ [current], x ∈ nodes := by
        intro x hx
        rcases List.mem_append.mp hx with h1 | h1
        · exact hrSub x h1
        · simp at h1
          exact h1 ▸ hcur_nodes
      have horder2 : ∀ d ∈ r ++ [current], ∀ s ∈ nodes, d ∈ graph s →
          s ∈ r ++ [current] ∧ posIn (r ++ [current]) s < posIn (r ++ [current]) d := by
        intro d hd s hs hg
        rcases List.mem_append.mp hd with h1 | h1
        · rcases horder d h1 s hs hg with ⟨hsr, hlt⟩
          refine ⟨List.mem_append_left _ hsr, ?_⟩
          rw [posIn_append_of_mem _ hsr, posIn_append_of_mem _ h1]
          exact hlt
        · simp at h1
          subst h1
          have hsr : s ∈ r := hprocessed s hs hg
          refine ⟨List.mem_append_left _ hsr, ?_⟩
          rw [posIn_append_of_mem _ hsr, posIn_append_of_not_mem _ hcur_r]
          have hlt := posIn_lt_length hsr
          simp only [posIn, if_pos rfl]
          omega
      have hinv2 : KahnInv nodes graph fuel (processDeps (graph current) rest f).1
          (processDeps (graph current) rest f).2 (r ++ [current]) := by
        refine ⟨hr2N, o1, o3, hr2Sub, o2, o4, o5, horder2, ?_⟩
        have hlen : (r ++ [current]).length = r.length + 1 := by simp
        omega
      have hout := ih _ _ _ hinv2
      have hstep : kahnLoop graph (fuel + 1) (current :: rest) f r =
          kahnLoop graph fuel (processDeps (graph current) rest f).1
            (processDeps (graph current) rest f).2 (r ++ [current]) := by
        simp only [kahnLoop]
      rw [hstep]
      obtain ⟨⟨t, ht⟩, hN, hSub, hOrd, hRes⟩ := hout
      exact ⟨⟨current :: t, by rw [ht]; simp⟩, hN, hSub, hOrd, hRes⟩

theorem kahnResult_spec (nodes : List P) (graph : P → List P) (hwf : TopoWf nodes graph) :
    KahnOut nodes graph [] (kahnResult nodes graph) := by
  unfold kahnResult
  apply kahnLoop_spec nodes graph hwf
  refine ⟨List.nodup_nil, hwf.1.filter _, ?_, ?_, ?_, ?_, ?_, ?_, ?_⟩
  · intro x _
    exact List.not_mem_nil x
  · intro x hx
    exact absurd hx (List.not_mem_nil x)
  · intro x hx
    exact (List.mem_filter.mp hx).1
  · intro d
    exact initIndeg_eq_depCount nodes graph d
  · intro d hd
    constructor
    · intro h0
      refine Or.inl (List.mem_filter.mpr ⟨hd, ?_⟩)
      simp [h0]
    · intro h1
      rcases h1 with h1 | h1
      · have h2 := (List.mem_filter.mp h1).2
        simpa using h2
      · exact absurd h1 (List.not_mem_nil d)
  · intro d hd
    exact absurd hd (List.not_mem_nil d)
  · simp

theorem kahn_complete_of_acyclic (nodes : List P) (graph : P → List P)
    (hwf : TopoWf nodes graph) (hacyc : Acyclic graph) :
    (kahnResult nodes graph).length = nodes.length := by
  obtain ⟨-, hN, hSub, -, hRes⟩ := kahnResult_spec nodes graph hwf
  by_contra hne
  have hle := nodup_sub_length_le hN hSub
  have hmiss : ∃ d ∈ nodes, d ∉ kahnResult nodes graph := by
    by_contra hall
    push_neg at hall
    have h2 := nodup_sub_length_le hwf.1 hall
    omega
  obtain ⟨d0, hd0n, hd0r⟩ := hmiss
  set S := nodes.filter (fun s => decide (s ∉ kahnResult nodes graph)) with hSdef
  have hd0S : d0 ∈ S :=
    List.mem_filter.mpr ⟨hd0n, by simp [hd0r]⟩
  have hstepS : ∀ d ∈ S, ∃ s ∈ S, d ∈ graph s := by
    intro d hd
    have h1 := List.mem_filter.mp hd
    have h2 : d ∉ kahnResult nodes graph := by simpa using h1.2
    obtain ⟨s, hs1, hs2, hs3⟩ := hRes d h1.1 h2
    exact ⟨s, List.mem_filter.mpr ⟨hs1, by simp [hs2]⟩, hs3⟩
  have hch : ∀ x : {y : P // y ∈ S}, ∃ z : {y : P // y ∈ S}, x.1 ∈ graph z.1 := by
    intro x
    obtain ⟨s, hs1, hs2⟩ := hstepS x.1 x.2
    exact ⟨⟨s, hs1⟩, hs2⟩
  choose nxt hnxt using hch
  have hstepseq : ∀ n, (nxt^[n] ⟨d0, hd0S⟩).1 ∈ graph (nxt^[n + 1] ⟨d0, hd0S⟩).1 := by
    intro n
    have h1 : nxt^[n + 1] ⟨d0, hd0S⟩ = nxt (nxt^[n] ⟨d0, hd0S⟩) :=
      Function.iterate_succ_apply' nxt n _
    rw [h1]
    exact hnxt _
  have hchain : ∀ n t,
      Relation.TransGen (depRel graph) (nxt^[n + t + 1] ⟨d0, hd0S⟩).1
        (nxt^[n] ⟨d0, hd0S⟩).1 := by
    intro n t
    induction t with
    | zero => exact Relation.TransGen.single (hstepseq n)
    | succ t iht =>
      have h1 : depRel graph (nxt^[n + t + 1 + 1] ⟨d0, hd0S⟩).1
          (nxt^[n + t + 1] ⟨d0, hd0S⟩).1 := hstepseq (n + t + 1)
      have h2 : n + (t + 1) + 1 = n + t + 1 + 1 := by omega
      rw [h2]
      exact Relation.TransGen.head h1 iht
  have hmaps : ∀ i : Fin (S.length + 1), (nxt^[i.1] ⟨d0, hd0S⟩).1 ∈ S.toFinset := by
    intro i
    exact List.mem_toFinset.mpr (nxt^[i.1] ⟨d0, hd0S⟩).2
  have hcardlt : S.toFinset.card < (Finset.univ : Finset (Fin (S.length + 1))).card := by
    have h1 := List.toFinset_card_le S
    rw [Finset.card_univ]
    simp only [Fintype.card_fin]
    omega
  obtain ⟨i, -, j, -, hij, heq⟩ :=
    Finset.exists_ne_map_eq_of_card_lt_of_maps_to hcardlt (fun i _ => hmaps i)
  have hcyc : ∀ a b : Fin (S.length + 1), a.1 < b.1 →
      (nxt^[a.1] ⟨d0, hd0S⟩).1 = (nxt^[b.1] ⟨d0, hd0S⟩).1 → False := by
    intro a b hab he
    have h2 : a.1 + (b.1 - a.1 - 1) + 1 = b.1 := by omega
    have h3 := hchain a.1 (b.1 - a.1 - 1)
    rw [h2] at h3
    rw [he] at h3
    exact hacyc _ h3
  rcases Nat.lt_trichotomy i.1 j.1 with h | h | h
  · exact hcyc i j h heq
  · exact hij (Fin.ext h)
  · exact hcyc j i h heq.symm

end TopoProofs

/-! ### Claims C3 and C4: the topological sorter -/

/-- C3: for every acyclic well-formed graph, the topological sort returns an
ordering of the targets that is dependency-first — for every build edge
where `a` depends on `b`, the index of `b` in the returned list is strictly
below the index of `a`; include-kind dependencies never enter the edge
relation, so they impose no constraint. -/
theorem topologicalSort_dependency_first {P : Type} [DecidableEq P]
    (nodes : List P) (graph : P → List P)
    (hwf : TopoWf nodes graph) (hacyc : Acyclic graph) :
    ∃ l, topologicalSort nodes graph = .ok l ∧ (∀ x, x ∈ l ↔ x ∈ nodes) ∧
      ∀ a b, a ∈ nodes → b ∈ graph a → posIn l b < posIn l a := by
  have hlen := kahn_complete_of_acyclic nodes graph hwf hacyc
  obtain ⟨-, hN, hSub, hOrd, -⟩ := kahnResult_spec nodes graph hwf
  have hfull : ∀ x ∈ nodes, x ∈ kahnResult nodes graph :=
    nodup_sub_full hN hSub (le_of_eq hlen.symm)
  refine ⟨(kahnResult nodes graph).reverse, ?_, ?_, ?_⟩
  · unfold topologicalSort
    rw [if_pos hlen]
  · intro x
    rw [List.mem_reverse]
    exact ⟨fun hx => hSub x hx, fun hx => hfull x hx⟩
  · intro a b ha hb
    have hbn : b ∈ nodes := hwf.2.2 a ha b hb
    have hbR : b ∈ kahnResult nodes graph := hfull b hbn
    obtain ⟨haR, hlt⟩ := hOrd b hbR a ha hb
    have h1 := posIn_reverse hN haR
    have h2 := posIn_reverse hN hbR
    have h3 := posIn_lt_length haR
    have h4 := posIn_lt_length hbR
    rw [h1, h2]
    omega

/-- Witness for C3 at the two-node graph where node 1 build-depends on
node 2. -/
theorem topologicalSort_dependency_first_witness :
    TopoWf [1, 2] w3Graph ∧ Acyclic w3Graph ∧
      (∃ l, topologicalSort [1, 2] w3Graph = .ok l ∧ (∀ x, x ∈ l ↔ x ∈ [1, 2]) ∧
        ∀ a b, a ∈ [1, 2] → b ∈ w3Graph a → posIn l b < posIn l a) := by
  have hacyc : Acyclic w3Graph := by
    intro a h
    have step : ∀ x y : Nat, depRel w3Graph x y → x = 1 ∧ y = 2 := by
      intro x y hxy
      unfold depRel w3Graph at hxy
      by_cases hx : x = 1
      · subst hx
        simp at hxy
        exact ⟨rfl, hxy⟩
      · rw [if_neg hx] at hxy
        exact absurd hxy (List.not_mem_nil y)
    have htg : ∀ x y : Nat, Relation.TransGen (depRel w3Graph) x y → x = 1 ∧ y = 2 := by
      intro x y h1
      induction h1 with
      | single h2 => exact step _ _ h2
      | tail _ h3 ih =>
        have h4 := step _ _ h3
        omega
    have h5 := htg a a h
    omega
  exact ⟨by decide, hacyc,
    topologicalSort_dependency_first [1, 2] w3Graph (by decide) hacyc⟩

/-- C4: for every well-formed graph the sorter either returns a list whose
length equals the node count and which contains every node, or fails with a
cycle error naming exactly the nodes not placed in the partial Kahn result;
it never returns a shorter list. -/
theorem topologicalSort_total_or_named_cycle {P : Type} [DecidableEq P]
    (nodes : List P) (graph : P → List P) (hwf : TopoWf nodes graph) :
    (∃ l, topologicalSort nodes graph = .ok l ∧ l.length = nodes.length ∧
        ∀ x, x ∈ l ↔ x ∈ nodes) ∨
      (∃ rem, topologicalSort nodes graph = .error rem ∧ rem ≠ [] ∧
        rem = nodes.filter (fun s => decide (s ∉ kahnResult nodes graph)) ∧
        (∀ x, x ∈ rem ↔ x ∈ nodes ∧ x ∉ kahnResult nodes graph)) := by
  obtain ⟨-, hN, hSub, -, -⟩ := kahnResult_spec nodes graph hwf
  by_cases hlen : (kahnResult nodes graph).length = nodes.length
  · left
    refine ⟨(kahnResult nodes graph).reverse, ?_, by simp [hlen], ?_⟩
    · unfold topologicalSort
      rw [if_pos hlen]
    · intro x
      rw [List.mem_reverse]
      exact ⟨fun hx => hSub x hx,
        fun hx => nodup_sub_full hN hSub (le_of_eq hlen.symm) x hx⟩
  · right
    refine ⟨_, ?_, ?_, rfl, ?_⟩
    · unfold topologicalSort
      rw [if_neg hlen]
    · have hle := nodup_sub_length_le hN hSub
      have hmiss : ∃ d ∈ nodes, d ∉ kahnResult nodes graph := by
        by_contra hall
        push_neg at hall
        have h2 := nodup_sub_length_le hwf.1 hall
        omega
      obtain ⟨d0, h1, h2⟩ := hmiss
      intro hnil
      have h3 : d0 ∈ nodes.filter (fun s => decide (s ∉ kahnResult nodes graph)) :=
        List.mem_filter.mpr ⟨h1, by simp [h2]⟩
      rw [hnil] at h3
      exact absurd h3 (List.not_mem_nil d0)
    · intro x
      rw [List.mem_filter]
      simp

/-- Witness for C4 at the two-node cycle (1 depends on 2 and 2 on 1) with a
third independent node. -/
theorem topologicalSort_total_or_named_cycle_witness :
    TopoWf [1, 2, 3] w4Graph ∧
      ((∃ l, topologicalSort [1, 2, 3] w4Graph = .ok l ∧ l.length = [1, 2, 3].length ∧
          ∀ x, x ∈ l ↔ x ∈ [1, 2, 3]) ∨
        (∃ rem, topologicalSort [1, 2, 3] w4Graph = .error rem ∧ rem ≠ [] ∧
          rem = [1, 2, 3].filter (fun s => decide (s ∉ kahnResult [1, 2, 3] w4Graph)) ∧
          (∀ x, x ∈ rem ↔ x ∈ [1, 2, 3] ∧ x ∉ kahnResult [1, 2, 3] w4Graph))) :=
  ⟨by decide, topologicalSort_total_or_named_cycle [1, 2, 3] w4Graph (by decide)⟩

/-! ### Path lemmas for claims C5 and C8 -/

theorem mem_pyParents_iff {b p : PyPath} : b ∈ pyParents p ↔ StrictDescendant b p := by
  constructor
  · intro h
    obtain ⟨i, hi, hb⟩ := List.mem_map.mp h
    have hi2 : i < p.comps.length := List.mem_range.mp hi
    rw [← hb]
    refine ⟨rfl, ?_, ?_⟩
    · simp only [List.length_take]
      omega
    · simp only [List.length_take]
      rw [Nat.min_eq_left (Nat.le_of_lt hi2)]
  · rintro ⟨habs, hlen, hcomps⟩
    refine List.mem_map.mpr ⟨b.comps.length, List.mem_range.mpr hlen, ?_⟩
    cases b with
    | mk a c =>
      simp only at habs hcomps ⊢
      rw [← habs, ← hcomps]

theorem pyRelativeTo_of_strict {b p : PyPath} (h : StrictDescendant b p) :
    pyRelativeTo p b = some ⟨false, p.comps.drop b.comps.length⟩ := by
  unfold pyRelativeTo
  rw [if_pos ⟨h.1.symm, h.2.2⟩]

theorem pyName_concat (ab : Bool) (l : List String) (x : String) :
    pyName ⟨ab, l ++ [x]⟩ = x := by
  unfold pyName
  simp

theorem revExtSplit_eq (l : List Char) :
    l = (revExtSplit l).1 ++ (revExtSplit l).2 ∧ (∀ c ∈ (revExtSplit l).1, c ≠ '.') ∧
      ((revExtSplit l).2 = [] ∨ ∃ t, (revExtSplit l).2 = '.' :: t) := by
  induction l with
  | nil => simp [revExtSplit]
  | cons c rest ih =>
    by_cases hc : c = '.'
    · subst hc
      have hb : (('.' : Char) == '.') = true := by decide
      simp only [revExtSplit, hb, if_true]
      exact ⟨rfl, by simp, Or.inr ⟨rest, rfl⟩⟩
    · have hb : ((c : Char) == '.') = false := by simp [hc]
      simp only [revExtSplit, hb, Bool.false_eq_true, if_false]
      refine ⟨?_, ?_, ih.2.2⟩
      · have h1 := ih.1
        calc c :: rest = c :: ((revExtSplit rest).1 ++ (revExtSplit rest).2) := by rw [← h1]
          _ = (c :: (revExtSplit rest).1) ++ (revExtSplit rest).2 := rfl
      · intro x hx
        rcases List.mem_cons.mp hx with h1 | h1
        · exact h1 ▸ hc
        · exact ih.2.1 x h1

theorem revExtSplit_no_dot {a : List Char} (h : ∀ c ∈ a, c ≠ '.') (b : List Char) :
    revExtSplit (a ++ '.' :: b) = (a, '.' :: b) := by
  induction a with
  | nil =>
    have hb : (('.' : Char) == '.') = true := by decide
    simp [revExtSplit, hb]
  | cons c t ih =>
    have hc : c ≠ '.' := h c (List.mem_cons_self c t)
    have hb : ((c : Char) == '.') = false := by simp [hc]
    have ih2 := ih (fun x hx => h x (List.mem_cons_of_mem c hx))
    simp [revExtSplit, hb, ih2]

theorem pySuffix_eq_mk (p : PyPath) (stemRev ext : List Char)
    (hname : (pyName p).data.reverse = ext ++ '.' :: stemRev)
    (hnodot : ∀ c ∈ ext, c ≠ '.') (hstem : stemRev ≠ []) (hextne : ext ≠ []) :
    pySuffix p = String.mk ('.' :: ext.reverse) := by
  unfold pySuffix
  rw [hname, revExtSplit_no_dot hnodot]
  have h1 : stemRev.isEmpty = false := by
    cases stemRev with
    | nil => exact absurd rfl hstem
    | cons a t => rfl
  have h2 : ext.isEmpty = false := by
    cases ext with
    | nil => exact absurd rfl hextne
    | cons a t => rfl
  simp [h1, h2]

theorem pySuffix_cases (p : PyPath) :
    pySuffix p = "" ∨
      ∃ stemRev ext, (pyName p).data.reverse = ext ++ '.' :: stemRev ∧
        (∀ c ∈ ext, c ≠ '.') ∧ stemRev ≠ [] ∧ ext ≠ [] ∧
        pySuffix p = String.mk ('.' :: ext.reverse) := by
  obtain ⟨happ, hnodot, hshape⟩ := revExtSplit_eq ((pyName p).data.reverse)
  rcases hshape with hnil | ⟨t, ht⟩
  · left
    simp [pySuffix, hnil]
  · by_cases h2 : t = []
    · left
      subst h2
      simp [pySuffix, ht]
    · by_cases h3 : (revExtSplit ((pyName p).data.reverse)).1 = []
      · left
        simp [pySuffix, ht, h3]
      · right
        refine ⟨t, (revExtSplit ((pyName p).data.reverse)).1, ?_, hnodot, h2, h3, ?_⟩
        · rw [← ht]
          exact happ
        · exact pySuffix_eq_mk p t _ (by rw [← ht]; exact happ) hnodot h2 h3

theorem pyWithSuffix_data (p : PyPath) (stemRev ext : List Char) (ns : String)
    (hname : (pyName p).data.reverse = ext ++ '.' :: stemRev)
    (hnodot : ∀ c ∈ ext, c ≠ '.') (hstem : stemRev ≠ []) (hextne : ext ≠ []) :
    pyWithSuffix p ns = ⟨p.absolute, p.comps.dropLast ++ [String.mk (stemRev.reverse ++ ns.data)]⟩ := by
  have hsuf := pySuffix_eq_mk p stemRev ext hname hnodot hstem hextne
  have hnamedata : (pyName p).data = stemRev.reverse ++ '.' :: ext.reverse := by
    have h1 := congrArg List.reverse hname
    rw [List.reverse_reverse] at h1
    rw [h1]
    simp
  have hnamene : pyName p ≠ "" := by
    intro hh
    have h2 := congrArg String.data hh
    rw [hnamedata] at h2
    have h3 := congrArg List.length h2
    simp at h3
  have hsufne : pySuffix p ≠ "" := by
    rw [hsuf]
    intro hh
    have h2 := congrArg String.data hh
    simp at h2
  have hlen1 : (pyName p).data.length = stemRev.length + 1 + ext.length := by
    rw [hnamedata]
    simp
    omega
  have hlen2 : (pySuffix p).data.length = ext.length + 1 := by
    rw [hsuf]
    simp
  have htake : (pyName p).data.take ((pyName p).data.length - (pySuffix p).data.length) =
      stemRev.reverse := by
    rw [hlen1, hlen2, hnamedata]
    have h4 : stemRev.length + 1 + ext.length - (ext.length + 1) = stemRev.reverse.length := by
      simp
      omega
    rw [h4, List.take_left]
  simp only [pyWithSuffix]
  rw [if_neg hnamene, if_neg hsufne, htake]
  cases ns with
  | mk nsd => rfl

theorem pySuffix_withSuffix_html (p : PyPath) (h : pyLower (pySuffix p) = ".md") :
    pySuffix (pyWithSuffix p ".html") = ".html" := by
  rcases pySuffix_cases p with h0 | ⟨stemRev, ext, hname, hnodot, hstem, hextne, hsuf⟩
  · rw [h0] at h
    exact absurd h (by decide)
  · rw [pyWithSuffix_data p stemRev ext ".html" hname hnodot hstem hextne]
    have hdata : (".html" : String).data = '.' :: ['h', 't', 'm', 'l'] := rfl
    have hres := pySuffix_eq_mk ⟨p.absolute,
        p.comps.dropLast ++ [String.mk (stemRev.reverse ++ (".html" : String).data)]⟩
      stemRev ['l', 'm', 't', 'h'] ?hn ?hnd hstem (by decide)
    · rw [hres]
      rfl
    case hn =>
      rw [pyName_concat]
      rw [hdata]
      simp
    case hnd =>
      decide

/-! ### Claim C5: path containment -/

/-- C5: `calculate_output_path` fails exactly when the resolved input is not
a strict descendant of the resolved base input path, and returns an output
path for every input strictly under the base. -/
theorem calcOutputPath_containment (cfg : Config) (input : PyPath) :
    ((∃ e, calcOutputPath cfg input = .error e) ↔
      ¬ StrictDescendant (pyResolve cfg.invoked_from cfg.base_input_path)
        (pyResolve cfg.invoked_from input)) ∧
    (StrictDescendant (pyResolve cfg.invoked_from cfg.base_input_path)
        (pyResolve cfg.invoked_from input) →
      ∃ p, calcOutputPath cfg input = .ok p) := by
  by_cases hd : StrictDescendant (pyResolve cfg.invoked_from cfg.base_input_path)
      (pyResolve cfg.invoked_from input)
  · have hok : ∃ p, calcOutputPath cfg input = .ok p := by
      simp only [calcOutputPath]
      rw [if_pos (mem_pyParents_iff.mpr hd)]
      cases hout : cfg.output_dir with
      | none => exact ⟨_, rfl⟩
      | some od =>
        rw [pyRelativeTo_of_strict hd]
        exact ⟨_, rfl⟩
    refine ⟨⟨?_, fun hn => absurd hd hn⟩, fun _ => hok⟩
    rintro ⟨e, he⟩
    obtain ⟨p, hp⟩ := hok
    rw [hp] at he
    exact absurd he (by simp)
  · refine ⟨⟨fun _ => hd, ?_⟩, fun hh => absurd hh hd⟩
    intro _
    refine ⟨"input is not under base input path", ?_⟩
    simp only [calcOutputPath]
    rw [if_neg (fun hmem => hd (mem_pyParents_iff.mp hmem))]

/-- Witness for C5: `a.md` under base `.` resolves without error. -/
theorem calcOutputPath_containment_witness :
    StrictDescendant (pyResolve c5Cfg.invoked_from c5Cfg.base_input_path)
        (pyResolve c5Cfg.invoked_from c5In) ∧
      (∃ p, calcOutputPath c5Cfg c5In = .ok p) :=
  ⟨by decide, (calcOutputPath_containment c5Cfg c5In).2 (by decide)⟩

/-! ### Claim C8: output-path computation -/

/-- C8: under the base, with no output root the output is the input path
with a case-insensitive `.md` suffix rewritten to `.html` and any other
path unchanged; with an output root it is the root joined with the
base-relative resolved input, under the same extension rule; and the
rewrite really produces the `.html` suffix. -/
theorem calcOutputPath_modes (cfg : Config) (input : PyPath)
    (hd : StrictDescendant (pyResolve cfg.invoked_from cfg.base_input_path)
      (pyResolve cfg.invoked_from input)) :
    (cfg.output_dir = none →
      (pyLower (pySuffix input) = ".md" →
        calcOutputPath cfg input = .ok (pyWithSuffix input ".html")) ∧
      (pyLower (pySuffix input) ≠ ".md" → calcOutputPath cfg input = .ok input)) ∧
    (∀ od, cfg.output_dir = some od →
      ∃ rel, pyRelativeTo (pyResolve cfg.invoked_from input)
          (pyResolve cfg.invoked_from cfg.base_input_path) = some rel ∧
        (pyLower (pySuffix (pyJoin od rel)) = ".md" →
          calcOutputPath cfg input = .ok (pyWithSuffix (pyJoin od rel) ".html")) ∧
        (pyLower (pySuffix (pyJoin od rel)) ≠ ".md" →
          calcOutputPath cfg input = .ok (pyJoin od rel))) ∧
    (∀ q : PyPath, pyLower (pySuffix q) = ".md" →
      pySuffix (pyWithSuffix q ".html") = ".html") := by
  refine ⟨?_, ?_, fun q hq => pySuffix_withSuffix_html q hq⟩
  · intro hout
    constructor
    · intro hmd
      simp only [calcOutputPath]
      rw [if_pos (mem_pyParents_iff.mpr hd), hout]
      simp only [if_pos hmd]
    · intro hmd
      simp only [calcOutputPath]
      rw [if_pos (mem_pyParents_iff.mpr hd), hout]
      simp only [if_neg hmd]
  · intro od hout
    refine ⟨⟨false, (pyResolve cfg.invoked_from input).comps.drop
      (pyResolve cfg.invoked_from cfg.base_input_path).comps.length⟩,
      pyRelativeTo_of_strict hd, ?_, ?_⟩
    · intro hmd
      simp only [calcOutputPath]
      rw [if_pos (mem_pyParents_iff.mpr hd), hout, pyRelativeTo_of_strict hd]
      simp [hmd]
    · intro hmd
      simp only [calcOutputPath]
      rw [if_pos (mem_pyParents_iff.mpr hd), hout, pyRelativeTo_of_strict hd]
      simp [hmd]

/-- Witness for C8: a non-markdown file under `sub/` with output root
`out/` keeps its extension and lands under the mirrored tree. -/
theorem calcOutputPath_modes_witness :
    StrictDescendant (pyResolve c8Cfg.invoked_from c8Cfg.base_input_path)
        (pyResolve c8Cfg.invoked_from c8In) ∧
      calcOutputPath c8Cfg c8In = .ok ⟨false, ["out", "sub", "pic.png"]⟩ := by
  have hd : StrictDescendant (pyResolve c8Cfg.invoked_from c8Cfg.base_input_path)
      (pyResolve c8Cfg.invoked_from c8In) := by decide
  obtain ⟨rel, hrel, -, hok⟩ := (calcOutputPath_modes c8Cfg c8In hd).2.1 ⟨false, ["out"]⟩ rfl
  have hrel2 : pyRelativeTo (pyResolve c8Cfg.invoked_from c8In)
      (pyResolve c8Cfg.invoked_from c8Cfg.base_input_path) =
        some ⟨false, ["sub", "pic.png"]⟩ := by decide
  rw [hrel2] at hrel
  injection hrel with hrel3
  subst hrel3
  refine ⟨hd, ?_⟩
  have h2 := hok (by decide)
  rw [h2]
  rfl

/-! ### Claim C6: duplicate insertion always fails -/

theorem addNode_ok_shape {meta : PyPath → Except String MarkdownMetadata}
    {g : BuildTargets} {n : BuildTarget} {g' : BuildTargets}
    (h : addNode meta g n = .ok g') :
    n.input_path ∉ graphKeys g ∧
      ∃ node2, g' = ⟨g.nodes ++ [(n.input_path, node2)], g.watch_targets⟩ := by
  unfold addNode at h
  by_cases hex : nodeExists g n.input_path
  · rw [if_pos hex] at h
    exact absurd h (by simp)
  · rw [if_neg hex] at h
    injection h with h2
    refine ⟨?_, ⟨_, h2.symm⟩⟩
    intro hmem
    exact hex (by simp [nodeExists, hmem])

theorem graphKeys_append (g : BuildTargets) (p : PyPath) (node2 : BuildTarget)
    (w : WatchTargets) :
    graphKeys ⟨g.nodes ++ [(p, node2)], w⟩ = graphKeys g ++ [p] := by
  simp [graphKeys]

theorem reachable_keys_nodup {meta : PyPath → Except String MarkdownMetadata}
    {g : BuildTargets} (h : Reachable meta g) : (graphKeys g).Nodup := by
  induction h with
  | base => simp [graphKeys, emptyBuildTargets]
  | node hr hok ih =>
    obtain ⟨hnot, node2, hshape⟩ := addNode_ok_shape hok
    rw [hshape, graphKeys_append]
    rw [List.nodup_append]
    exact ⟨ih, List.nodup_singleton _, by simpa using hnot⟩
  | watch cwd p hr ih =>
    simpa [graphKeys] using ih

/-- C6: in every reachable build-target store the input paths are unique,
inserting a node whose input path already exists always fails, and a
successful insertion appends the new node while all existing entries are
preserved (never silently overwritten). -/
theorem addNode_unique (meta : PyPath → Except String MarkdownMetadata)
    (g : BuildTargets) (n : BuildTarget) (hreach : Reachable meta g) :
    (graphKeys g).Nodup ∧
      (n.input_path ∈ graphKeys g → ∃ e, addNode meta g n = .error e) ∧
      (n.input_path ∉ graphKeys g → ∃ node2, addNode meta g n =
        .ok ⟨g.nodes ++ [(n.input_path, node2)], g.watch_targets⟩) := by
  refine ⟨reachable_keys_nodup hreach, ?_, ?_⟩
  · intro hmem
    refine ⟨"node already exists in build targets", ?_⟩
    unfold addNode
    rw [if_pos (show nodeExists g n.input_path by simp [nodeExists, hmem])]
  · intro hnot
    unfold addNode
    rw [if_neg (show ¬nodeExists g n.input_path by simp [nodeExists, hnot])]
    exact ⟨_, rfl⟩

/-- Witness for C6 at the empty store and a concrete markdown node. -/
theorem addNode_unique_witness :
    (graphKeys emptyBuildTargets).Nodup ∧
      (c6Node.input_path ∈ graphKeys emptyBuildTargets →
        ∃ e, addNode mEmptyMeta emptyBuildTargets c6Node = .error e) ∧
      (c6Node.input_path ∉ graphKeys emptyBuildTargets →
        ∃ node2, addNode mEmptyMeta emptyBuildTargets c6Node =
          .ok ⟨emptyBuildTargets.nodes ++ [(c6Node.input_path, node2)],
            emptyBuildTargets.watch_targets⟩) :=
  addNode_unique mEmptyMeta emptyBuildTargets c6Node Reachable.base

/-! ### Claim C9: per-file parse failures are isolated -/

theorem addNode_parse_error (meta : PyPath → Except String MarkdownMetadata)
    (g : BuildTargets) (n : BuildTarget) (e : String)
    (hmeta : meta n.input_path = .error e) (hnew : n.input_path ∉ graphKeys g) :
    addNode meta g n = .ok ⟨g.nodes ++ [(n.input_path, n)], g.watch_targets⟩ := by
  unfold addNode
  rw [if_neg (show ¬nodeExists g n.input_path by simp [nodeExists, hnew])]
  by_cases hmd : n.node_type = .markdown ∧ pyLower (pySuffix n.input_path) = ".md"
  · rw [if_pos hmd, hmeta]
  · rw [if_neg hmd]

theorem sameShapeRes_elim {r1 r2 : Except String BuildTargets} (h : SameShapeRes r1 r2) :
    (∃ e, r1 = .error e ∧ r2 = .error e) ∨
      (∃ a b, r1 = .ok a ∧ r2 = .ok b ∧ SameShape a b) :=
  match r1, r2, h with
  | .error e1, .error _, h => Or.inl ⟨e1, rfl, by rw [show _ = e1 from h.symm]⟩
  | .ok a, .ok b, h => Or.inr ⟨a, b, rfl, rfl, h⟩

theorem addNode_sameShape (m1 m2 : PyPath → Except String MarkdownMetadata)
    {g1 g2 : BuildTargets} (hsh : SameShape g1 g2) (n : BuildTarget) :
    SameShapeRes (addNode m1 g1 n) (addNode m2 g2 n) := by
  unfold addNode
  have hkeys : nodeExists g1 n.input_path = nodeExists g2 n.input_path := by
    unfold nodeExists
    rw [hsh.1]
  by_cases hex : nodeExists g2 n.input_path
  · rw [hkeys, if_pos hex, if_pos hex]
    show (("node already exists in build targets" : String) = _)
    rfl
  · rw [hkeys, if_neg hex, if_neg hex]
    show SameShape _ _
    constructor
    · show graphKeys ⟨g1.nodes ++ [(n.input_path, _)], g1.watch_targets⟩ =
        graphKeys ⟨g2.nodes ++ [(n.input_path, _)], g2.watch_targets⟩
      rw [graphKeys_append, graphKeys_append, hsh.1]
    · exact hsh.2

mutual
theorem handleEntry_sameShape (m1 m2 : PyPath → Except String MarkdownMetadata)
    (cfg : Config) (path : PyPath) (e : FSEntry) :
    ∀ g1 g2 : BuildTargets, SameShape g1 g2 →
      SameShapeRes (handleEntry m1 cfg path e g1) (handleEntry m2 cfg path e g2) := by
  intro g1 g2 hsh
  cases e with
  | file =>
    simp only [handleEntry]
    by_cases hig : (shouldIgnorePath path && !cfg.single_file_mode) = true
    · rw [if_pos hig, if_pos hig]
      exact hsh
    · rw [if_neg hig, if_neg hig]
      split
      · exact rfl
      · rename_i output0 heq
        by_cases hmd : pyLower (pySuffix path) = ".md"
        · rw [if_pos hmd, if_pos hmd]
          have han := addNode_sameShape m1 m2 hsh
            ⟨.markdown, path, some (match cfg.output_dir with
              | some od => if cfg.single_file_mode && (pySuffix od != "") then od else output0
              | none => output0), [], []⟩
          rcases sameShapeRes_elim han with ⟨err, h1, h2⟩ | ⟨a, b, h1, h2, hab⟩
          · rw [h1, h2]
            show (err = err)
            rfl
          · rw [h1, h2]
            show SameShape _ _
            exact ⟨by simpa [graphKeys] using hab.1, by rw [hab.2]⟩
        · rw [if_neg hmd, if_neg hmd]
          by_cases hcp : pyResolve cfg.invoked_from (match cfg.output_dir with
              | some od => if cfg.single_file_mode && (pySuffix od != "") then od else output0
              | none => output0) ≠ pyResolve cfg.invoked_from path
          · rw [if_pos hcp, if_pos hcp]
            have han := addNode_sameShape m1 m2 hsh
              ⟨.copy, path, some (match cfg.output_dir with
                | some od => if cfg.single_file_mode && (pySuffix od != "") then od else output0
                | none => output0), [], []⟩
            rcases sameShapeRes_elim han with ⟨err, h1, h2⟩ | ⟨a, b, h1, h2, hab⟩
            · rw [h1, h2]
              show (err = err)
              rfl
            · rw [h1, h2]
              show SameShape _ _
              exact ⟨by simpa [graphKeys] using hab.1, by rw [hab.2]⟩
          · rw [if_neg hcp, if_neg hcp]
            exact hsh
  | dir children =>
    simp only [handleEntry]
    by_cases hig : (shouldIgnorePath path && !cfg.single_file_mode) = true
    · rw [if_pos hig, if_pos hig]
      exact hsh
    · rw [if_neg hig, if_neg hig]
      by_cases hrec : (!cfg.recursive) = true
      · rw [if_pos hrec, if_pos hrec]
        show (("directory requires recursive mode" : String) = _)
        rfl
      · rw [if_neg hrec, if_neg hrec]
        split
        · rename_i od heq
          by_cases hguard : pyResolve cfg.invoked_from path = pyResolve cfg.invoked_from od ∧
              pyResolve cfg.invoked_from cfg.base_input_path ∈
                pyParents (pyResolve cfg.invoked_from od)
          · rw [if_pos hguard, if_pos hguard]
            exact hsh
          · rw [if_neg hguard, if_neg hguard]
            exact handleList_sameShape m1 m2 cfg path children g1 g2 hsh
        · exact handleList_sameShape m1 m2 cfg path children g1 g2 hsh

theorem handleList_sameShape (m1 m2 : PyPath → Except String MarkdownMetadata)
    (cfg : Config) (dirPath : PyPath) (l : FSList) :
    ∀ g1 g2 : BuildTargets, SameShape g1 g2 →
      SameShapeRes (handleList m1 cfg dirPath l g1) (handleList m2 cfg dirPath l g2) := by
  intro g1 g2 hsh
  cases l with
  | nil =>
    show SameShape g1 g2
    exact hsh
  | cons name e rest =>
    simp only [handleList]
    by_cases hig : shouldIgnorePath (pyJoinName dirPath name) = true
    · rw [if_pos hig, if_pos hig]
      exact handleList_sameShape m1 m2 cfg dirPath rest g1 g2 hsh
    · rw [if_neg hig, if_neg hig]
      have hent := handleEntry_sameShape m1 m2 cfg (pyJoinName dirPath name) e g1 g2 hsh
      rcases sameShapeRes_elim hent with ⟨err, h1, h2⟩ | ⟨a, b, h1, h2, hab⟩
      · rw [h1, h2]
        show (err = err)
        rfl
      · rw [h1, h2]
        exact handleList_sameShape m1 m2 cfg dirPath rest a b hab
end

/-- C9: a per-file metadata parse failure is downgraded — the markdown
Target is still inserted, with its (empty) dependencies and front matter
untouched and every earlier node preserved — and which Targets enter the
graph never depends on the metadata provider at all, so no sibling's
inclusion is affected. -/
theorem parse_failure_isolated :
    (∀ (meta : PyPath → Except String MarkdownMetadata) (g : BuildTargets)
        (n : BuildTarget) (e : String),
      meta n.input_path = .error e → n.input_path ∉ graphKeys g →
        addNode meta g n = .ok ⟨g.nodes ++ [(n.input_path, n)], g.watch_targets⟩) ∧
    (∀ (m1 m2 : PyPath → Except String MarkdownMetadata) (cfg : Config)
        (path : PyPath) (entry : FSEntry) (g : BuildTargets),
      (handleEntry m1 cfg path entry g).map graphKeys =
        (handleEntry m2 cfg path entry g).map graphKeys) := by
  constructor
  · intro meta g n e hmeta hnew
    exact addNode_parse_error meta g n e hmeta hnew
  · intro m1 m2 cfg path entry g
    have h := handleEntry_sameShape m1 m2 cfg path entry g g ⟨rfl, rfl⟩
    rcases sameShapeRes_elim h with ⟨err, h1, h2⟩ | ⟨a, b, h1, h2, hab⟩
    · rw [h1, h2]
    · rw [h1, h2]
      show Except.ok (graphKeys a) = Except.ok (graphKeys b)
      rw [hab.1]

/-- Witness for C9: inserting `bad.md` whose metadata parse fails still
succeeds and stores the node with empty dependencies and front matter. -/
theorem parse_failure_isolated_witness :
    c9Meta c9Node.input_path = .error "malformed" ∧
      c9Node.dependencies = [] ∧ c9Node.frontmatter = [] ∧
      addNode c9Meta emptyBuildTargets c9Node =
        .ok ⟨emptyBuildTargets.nodes ++ [(c9Node.input_path, c9Node)],
          emptyBuildTargets.watch_targets⟩ :=
  ⟨rfl, rfl, rfl,
    parse_failure_isolated.1 c9Meta emptyBuildTargets c9Node "malformed" rfl (by decide)⟩

/-! ### Claim C2: the watch set -/

theorem watchInv_insert (cfg : Config) {g : BuildTargets} (hinv : WatchInv cfg g)
    (p : PyPath) (node2 : BuildTarget) :
    WatchInv cfg ⟨g.nodes ++ [(p, node2)],
      addWatchedFile cfg.invoked_from g.watch_targets p⟩ := by
  intro x
  have hkeys : graphKeys ⟨g.nodes ++ [(p, node2)],
      addWatchedFile cfg.invoked_from g.watch_targets p⟩ = graphKeys g ++ [p] := by
    simp [graphKeys]
  show x ∈ (addWatchedFile cfg.invoked_from g.watch_targets p).watched_files ↔ _
  rw [hkeys]
  unfold addWatchedFile
  by_cases hmem : pyResolve cfg.invoked_from p ∈ g.watch_targets.watched_files
  · rw [if_pos hmem]
    rw [hinv x]
    constructor
    · rintro ⟨q, hq1, hq2⟩
      exact ⟨q, List.mem_append_left _ hq1, hq2⟩
    · rintro ⟨q, hq1, hq2⟩
      rcases List.mem_append.mp hq1 with h2 | h2
      · exact ⟨q, h2, hq2⟩
      · simp at h2
        subst h2
        rw [← hq2]
        exact (hinv _).mp hmem
  · rw [if_neg hmem]
    constructor
    · intro hx
      rcases List.mem_append.mp hx with h2 | h2
      · obtain ⟨q, hq1, hq2⟩ := (hinv x).mp h2
        exact ⟨q, List.mem_append_left _ hq1, hq2⟩
      · simp at h2
        exact ⟨p, List.mem_append_right _ (by simp), h2.symm⟩
    · rintro ⟨q, hq1, hq2⟩
      rcases List.mem_append.mp hq1 with h2 | h2
      · exact List.mem_append_left _ ((hinv x).mpr ⟨q, h2, hq2⟩)
      · simp at h2
        subst h2
        rw [← hq2]
        exact List.mem_append_right _ (by simp)

mutual
theorem handleEntry_watchInv (meta : PyPath → Except String MarkdownMetadata)
    (cfg : Config) (e : FSEntry) :
    ∀ (path : PyPath) (g g' : BuildTargets), WatchInv cfg g →
      handleEntry meta cfg path e g = .ok g' → WatchInv cfg g' := by
  intro path g g' hinv h
  cases e with
  | file =>
    simp only [handleEntry] at h
    by_cases hig : (shouldIgnorePath path && !cfg.single_file_mode) = true
    · rw [if_pos hig] at h
      injection h with h2
      exact h2 ▸ hinv
    · rw [if_neg hig] at h
      split at h
      · exact Except.noConfusion h
      · rename_i output0 heq
        by_cases hmd : pyLower (pySuffix path) = ".md"
        · rw [if_pos hmd] at h
          split at h
          · exact Except.noConfusion h
          · rename_i g2 heq2
            injection h with h2
            obtain ⟨hnot, node2, hshape⟩ := addNode_ok_shape heq2
            rw [← h2, hshape]
            exact watchInv_insert cfg hinv path node2
        · rw [if_neg hmd] at h
          by_cases hcp : pyResolve cfg.invoked_from (match cfg.output_dir with
              | some od => if cfg.single_file_mode && (pySuffix od != "") then od else output0
              | none => output0) ≠ pyResolve cfg.invoked_from path
          · rw [if_pos hcp] at h
            split at h
            · exact Except.noConfusion h
            · rename_i g2 heq2
              injection h with h2
              obtain ⟨hnot, node2, hshape⟩ := addNode_ok_shape heq2
              rw [← h2, hshape]
              exact watchInv_insert cfg hinv path node2
          · rw [if_neg hcp] at h
            injection h with h2
            exact h2 ▸ hinv
  | dir children =>
    simp only [handleEntry] at h
    by_cases hig : (shouldIgnorePath path && !cfg.single_file_mode) = true
    · rw [if_pos hig] at h
      injection h with h2
      exact h2 ▸ hinv
    · rw [if_neg hig] at h
      by_cases hrec : (!cfg.recursive) = true
      · rw [if_pos hrec] at h
        exact Except.noConfusion h
      · rw [if_neg hrec] at h
        split at h
        · rename_i od heq
          split at h
          · injection h with h2
            exact h2 ▸ hinv
          · exact handleList_watchInv meta cfg children path g g' hinv h
        · exact handleList_watchInv meta cfg children path g g' hinv h

theorem handleList_watchInv (meta : PyPath → Except String MarkdownMetadata)
    (cfg : Config) (l : FSList) :
    ∀ (dirPath : PyPath) (g g' : BuildTargets), WatchInv cfg g →
      handleList meta cfg dirPath l g = .ok g' → WatchInv cfg g' := by
  intro dirPath g g' hinv h
  cases l with
  | nil =>
    injection h with h2
    exact h2 ▸ hinv
  | cons name e rest =>
    simp only [handleList] at h
    by_cases hig : shouldIgnorePath (pyJoinName dirPath name) = true
    · rw [if_pos hig] at h
      exact handleList_watchInv meta cfg rest dirPath g g' hinv h
    · rw [if_neg hig] at h
      split at h
      · exact Except.noConfusion h
      · rename_i g2 heq2
        exact handleList_watchInv meta cfg rest dirPath g2 g'
          (handleEntry_watchInv meta cfg e (pyJoinName dirPath name) g g2 hinv heq2) h
end

/-- C2 counterexample: for `note.md` whose metadata declares the dependency
`other.md`, discovery records the dependency on the Target, yet the
dependency's resolved path is absent from the watch set — the watch set is
not the union the claim describes. -/
theorem watch_set_counterexample :
    handleEntry c2Meta c2Cfg c2Note .file emptyBuildTargets = .ok c2Graph ∧
      (c2Graph.nodes.map (fun kv => kv.2.dependencies.map DepRecord.name)) = [["other.md"]] ∧
      pyResolve c2Cfg.invoked_from (pyJoin (pyParent c2Note) (pyPathOfString "other.md")) =
        c2DepResolved ∧
      c2DepResolved ∉ c2Graph.watch_targets.watched_files :=
  ⟨by rfl, by rfl, by rfl, by decide⟩

/-- C2 (amended): the watch set holds exactly the resolved input paths of
the Targets present in the graph — it starts empty and this equality is
maintained (incrementally, target by target) through every successful
discovery step; dependency paths are not added to it. -/
theorem watch_set_amended :
    (∀ cfg : Config, WatchInv cfg emptyBuildTargets) ∧
    (∀ (meta : PyPath → Except String MarkdownMetadata) (cfg : Config)
        (path : PyPath) (entry : FSEntry) (g g' : BuildTargets),
      WatchInv cfg g → handleEntry meta cfg path entry g = .ok g' → WatchInv cfg g') := by
  constructor
  · intro cfg x
    simp [emptyBuildTargets, graphKeys, WatchInv]
  · intro meta cfg path entry g g' hinv h
    exact handleEntry_watchInv meta cfg entry path g g' hinv h

/-- Witness for C2 (amended): the invariant transported through the
concrete `note.md` discovery run, read off at the resolved input path. -/
theorem watch_set_amended_witness :
    (⟨true, ["home", "note.md"]⟩ : PyPath) ∈ c2Graph.watch_targets.watched_files ↔
      ∃ q ∈ graphKeys c2Graph,
        pyResolve c2Cfg.invoked_from q = (⟨true, ["home", "note.md"]⟩ : PyPath) :=
  (watch_set_amended.2 c2Meta c2Cfg c2Note .file emptyBuildTargets c2Graph
    (by intro x; simp [emptyBuildTargets, graphKeys]) (by rfl)) ⟨true, ["home", "note.md"]⟩

/-! ### Claim C7: the output-directory self-reference guard -/

theorem pyName_joinName (p : PyPath) (x : String) : pyName (pyJoinName p x) = x := by
  unfold pyJoinName
  exact pyName_concat p.absolute p.comps x

theorem shouldIgnore_joinName_amd (p : PyPath) :
    shouldIgnorePath (pyJoinName p "a.md") = false := by
  unfold shouldIgnorePath
  rw [pyName_joinName]
  decide

theorem pySuffix_joinName_amd (p : PyPath) : pySuffix (pyJoinName p "a.md") = ".md" := by
  unfold pySuffix
  rw [pyName_joinName]
  decide

theorem handleEntry_amd_file_ne (meta : PyPath → Except String MarkdownMetadata)
    (cfg : Config) (p : PyPath) (g : BuildTargets) :
    handleEntry meta cfg (pyJoinName p "a.md") .file g ≠ .ok g := by
  intro h
  simp only [handleEntry] at h
  rw [if_neg (by rw [shouldIgnore_joinName_amd]; simp)] at h
  split at h
  · exact Except.noConfusion h
  · rename_i output0 heq
    rw [if_pos (by rw [pySuffix_joinName_amd]; decide)] at h
    split at h
    · exact Except.noConfusion h
    · rename_i g2 heq2
      injection h with h2
      obtain ⟨hnot, node2, hshape⟩ := addNode_ok_shape heq2
      have h3 := congrArg BuildTargets.nodes h2
      rw [hshape] at h3
      have h4 := congrArg List.length h3
      simp at h4

theorem handleList_single_amd_ne (meta : PyPath → Except String MarkdownMetadata)
    (cfg : Config) (p : PyPath) (g : BuildTargets) :
    handleList meta cfg p (.cons "a.md" .file .nil) g ≠ .ok g := by
  intro h
  simp only [handleList] at h
  rw [if_neg (by rw [shouldIgnore_joinName_amd]; simp)] at h
  split at h
  · exact Except.noConfusion h
  · rename_i g2 heq2
    injection h with h2
    subst h2
    exact handleEntry_amd_file_ne meta cfg p _ heq2

/-- C7 counterexample: with output root `out` under base `.`, the directory
argument `_build` is skipped silently although it is not the output root —
its name alone triggers the skip; the identically-shaped directory `build`
is scanned and yields a Target. -/
theorem dir_skip_counterexample :
    handleEntry mEmptyMeta c7Cfg c7Hidden (.dir c7Children) emptyBuildTargets =
        .ok emptyBuildTargets ∧
      pyResolve c7Cfg.invoked_from c7Hidden ≠
        pyResolve c7Cfg.invoked_from (⟨false, ["out"]⟩ : PyPath) ∧
      (handleEntry mEmptyMeta c7Cfg c7Plain (.dir c7Children) emptyBuildTargets).map
          graphKeys = .ok [⟨false, ["build", "x.md"]⟩] :=
  ⟨by rfl, by decide, by rfl⟩

/-- C7 (amended): in recursive mode a directory argument is skipped
silently exactly when its name begins with an underscore or dot (outside
single-file mode) or it equals the configured output root with that root
nested under the base input path; and `tool html -o html` (base equals the
output root) is still scanned as normal input. -/
theorem dir_skip_amended :
    (∀ (meta : PyPath → Except String MarkdownMetadata) (cfg : Config) (p : PyPath)
        (g : BuildTargets), cfg.recursive = true →
      ((∀ ch : FSList, handleEntry meta cfg p (.dir ch) g = .ok g) ↔
        (shouldIgnorePath p = true ∧ cfg.single_file_mode = false) ∨
        (∃ od, cfg.output_dir = some od ∧
          pyResolve cfg.invoked_from p = pyResolve cfg.invoked_from od ∧
          pyResolve cfg.invoked_from cfg.base_input_path ∈
            pyParents (pyResolve cfg.invoked_from od)))) ∧
    handleEntry mEmptyMeta c7HtmlCfg c7HtmlDir (.dir (.cons "note.md" .file .nil))
        emptyBuildTargets = .ok c7HtmlGraph := by
  constructor
  · intro meta cfg p g hrec
    constructor
    · intro hall
      by_contra hrhs
      push_neg at hrhs
      obtain ⟨hn1, hn2⟩ := hrhs
      have hig : (shouldIgnorePath p && !cfg.single_file_mode) = false := by
        by_cases h1 : shouldIgnorePath p = true
        · by_cases h2 : cfg.single_file_mode = true
          · simp [h1, h2]
          · exact absurd (by simpa using h2) (hn1 h1)
        · simp [Bool.eq_false_iff.mpr h1]
      have hspec := hall (.cons "a.md" .file .nil)
      simp only [handleEntry] at hspec
      rw [if_neg (by simp [hig])] at hspec
      rw [if_neg (by simp [hrec])] at hspec
      split at hspec
      · rename_i od heq
        rw [if_neg (fun hab => hn2 od heq hab.1 hab.2)] at hspec
        exact handleList_single_amd_ne meta cfg p g hspec
      · exact handleList_single_amd_ne meta cfg p g hspec
    · intro hrhs ch
      rcases hrhs with ⟨h1, h2⟩ | ⟨od, hod, heq, hmem⟩
      · simp only [handleEntry]
        rw [if_pos (by simp [h1, h2])]
      · simp only [handleEntry]
        by_cases hig : (shouldIgnorePath p && !cfg.single_file_mode) = true
        · rw [if_pos hig]
        · rw [if_neg hig]
          rw [if_neg (by simp [hrec])]
          simp only [hod]
          rw [if_pos ⟨heq, hmem⟩]
  · rfl

/-- Witness for C7 (amended): with base `.`, output root `out` and
recursive mode, the directory `out` itself is skipped for every listing. -/
theorem dir_skip_amended_witness :
    c7Cfg.recursive = true ∧
      (∀ ch : FSList, handleEntry mEmptyMeta c7Cfg ⟨false, ["out"]⟩ (.dir ch)
          emptyBuildTargets = .ok emptyBuildTargets) :=
  ⟨rfl, (dir_skip_amended.1 mEmptyMeta c7Cfg ⟨false, ["out"]⟩ emptyBuildTargets rfl).mpr
    (Or.inr ⟨⟨false, ["out"]⟩, rfl, by decide, by decide⟩)⟩

/-! ### Claim C1: the include/src planning scenario -/

/-- C1: planning `note.md`, whose directive feed declares
`@include(other.md)` and `@src(hello.cpp)`, yields a plan of exactly three
Targets — `note.md` and `other.md` as markdown, `hello.cpp` as a code
target to be built — with a build edge recorded from `note.md` to
`hello.cpp`, and the build-graph Target for `note.md` carries dependency
records named `other.md` and `hello.cpp`. -/
theorem include_src_scenario :
    planBuild ["home"] c1Pcfg c1IsDir c1Scan [c1Note] =
        .ok [c1CppItem, c1OtherItem, c1NoteItem] ∧
      c1CppItem.item_type = "code" ∧ c1OtherItem.item_type = "markdown" ∧
      c1NoteItem.item_type = "markdown" ∧
      c1NoteItem.build_dependencies = [c1Cpp] ∧
      c1NoteItem.include_dependencies = [c1Other] ∧
      depGraphFn (scanAllDependencies ["home"] c1Pcfg c1IsDir c1Scan
        (createMarkdownBuildItem c1Pcfg c1IsDir ⟨[], []⟩ c1Note)) c1Note = [c1Cpp] ∧
      handleEntry c1Meta c1Cfg c1Note .file emptyBuildTargets =
        .ok ⟨[(c1Note, ⟨.markdown, c1Note, some ⟨false, ["base", "note.html"]⟩,
          [⟨"other.md", []⟩, ⟨"hello.cpp", []⟩], []⟩)],
          ⟨[⟨true, ["home", "base", "note.md"]⟩]⟩⟩ ∧
      [⟨"other.md", ([] : List String)⟩, ⟨"hello.cpp", ([] : List String)⟩].map
          DepRecord.name = ["other.md", "hello.cpp"] :=
  ⟨by rfl, rfl, rfl, rfl, rfl, rfl, by rfl, by rfl, by rfl⟩

/-! ### Claim C10: option value coercion and serialization -/

theorem pyLowerChar_of_digit {c : Char} (h : pyDigitChar c = true) : pyLowerChar c = c := by
  unfold pyDigitChar at h
  simp only [Bool.and_eq_true, decide_eq_true_eq] at h
  unfold pyLowerChar
  rw [if_neg]
  intro hc
  omega

theorem pyLower_digits {v : String} (hd : pyIsDigits v = true) :
    ∀ c ∈ (pyLower v).data, pyDigitChar c = true := by
  intro c hc
  unfold pyLower at hc
  simp only [List.mem_map] at hc
  obtain ⟨b, hb1, hb2⟩ := hc
  unfold pyIsDigits at hd
  simp only [Bool.and_eq_true] at hd
  have hball := hd.2
  rw [List.all_eq_true] at hball
  have hbd : pyDigitChar b = true := hball b hb1
  rw [← hb2, pyLowerChar_of_digit hbd]
  exact hbd

theorem coerceValue_digits {v : String} (hd : pyIsDigits v = true) :
    coerceValue v = .i (natOfDigits v) := by
  unfold coerceValue
  have h1 : pyLower v ≠ "true" := by
    intro hh
    have h2 := pyLower_digits hd 't' (by rw [hh]; decide)
    exact absurd h2 (by decide)
  have h2 : pyLower v ≠ "false" := by
    intro hh
    have h3 := pyLower_digits hd 'f' (by rw [hh]; decide)
    exact absurd h3 (by decide)
  rw [if_neg h1, if_neg h2, if_pos hd]

/-- C10: a directive option value `true`/`false` (case-insensitively) is
coerced to a boolean, a value consisting only of digits to an integer, and
any other value stays the (quote-stripped) string; serialization renders
each option as `key=value` using Python's string form of the coerced value,
so `flag=true` is emitted as `flag=True`. -/
theorem option_coercion :
    (∀ v : String, pyLower v = "true" → coerceValue v = .b true) ∧
    (∀ v : String, pyLower v = "false" → coerceValue v = .b false) ∧
    (∀ v : String, pyIsDigits v = true → coerceValue v = .i (natOfDigits v)) ∧
    (∀ v : String, pyLower v ≠ "true" → pyLower v ≠ "false" → pyIsDigits v = false →
      coerceValue v = .s v) ∧
    (∀ (k : String) (val : PyVal), serializeOptions [(k, val)] = [k ++ "=" ++ pyStr val]) ∧
    parseOptions "flag=true" = [("flag", .b true)] ∧
    serializeOptions (parseOptions "flag=true") = ["flag=True"] ∧
    parseOptions "k=\"hello\"" = [("k", .s "hello")] ∧
    parseOptions "lang=cpp, lines=1-50" = [("lang", .s "cpp"), ("lines", .s "1-50")] := by
  refine ⟨?_, ?_, ?_, ?_, ?_, by rfl, by rfl, by rfl, by rfl⟩
  · intro v hv
    unfold coerceValue
    rw [if_pos hv]
  · intro v hv
    have hne : pyLower v ≠ "true" := by
      intro hh
      rw [hv] at hh
      exact absurd hh (by decide)
    unfold coerceValue
    rw [if_neg hne, if_pos hv]
  · intro v hv
    exact coerceValue_digits hv
  · intro v h1 h2 h3
    unfold coerceValue
    rw [if_neg h1, if_neg h2, if_neg (by simp [h3])]
  · intro k val
    rfl

/-- Witness for C10: `TRUE` coerces to the boolean and `007` to the
integer 7. -/
theorem option_coercion_witness :
    pyLower "TRUE" = "true" ∧ coerceValue "TRUE" = .b true ∧
      pyIsDigits "007" = true ∧ coerceValue "007" = .i 7 := by
  refine ⟨by decide, option_coercion.1 "TRUE" (by decide), by decide, ?_⟩
  have h := option_coercion.2.2.1 "007" (by decide)
  rw [h]
  decide

end Md2Html
